import Mathlib

set_option maxHeartbeats 1000000

/-
Verification of the trace-graph utilities of `sdk/pytorch_graph/_graph_utils.py`
and the MNASNet search-space helpers of `mnasnet.py`.

Modelling conventions:
* Python strings are modelled as `String`, manipulated through `String.data`
  (a `List Char`); the Python string operations used by the source
  (`split`, `join`, `replace`, `rstrip`, slicing, `<`/`>=` comparison,
  `startswith`/`endswith`, `int(...)`) are translated below as explicit
  char-list functions.
* Python ints are `Nat`/`Int` (`//` on non-negative ints is `Nat` division).
* The only floats involved (0.75, 1.0, 1.25, 0.9, `divisor / 2`) make every
  arithmetic expression of the claims exact in binary floating point, so they
  are modelled as `Rat`.
* Python dicts are modelled as association lists with replace-or-append
  insertion (one entry per key, insertion order kept), `defaultdict(list)`
  as an association list of accumulating lists.
* `torch._C.Node` objects (jit trace nodes) are modelled as `TraceNode`
  records carrying exactly what the code reads from them: kind, scope name,
  and the debug names of their input and output values.  Object identity of
  trace nodes is modelled by a numeric id.
-/

/-! ### Python string primitives (char-list level) -/

/-- Python `s.split(sep)` for a one-character separator `sep`:
`''.split(sep) = ['']`, consecutive separators yield empty pieces. -/
def pySplitChar (sep : Char) : List Char → List (List Char)
  | [] => [[]]
  | c :: cs =>
    match pySplitChar sep cs with
    | [] => [[]]
    | s :: rest => if c = sep then [] :: s :: rest else (c :: s) :: rest

/-- Python `sep.join(pieces)` for a one-character separator. -/
def pyJoinChar (sep : Char) : List (List Char) → List Char
  | [] => []
  | [s] => s
  | s :: t :: rest => s ++ sep :: pyJoinChar sep (t :: rest)

/-- Python `pieces[-1]` on the (always non-empty) result of `split`. -/
def pyLast (l : List (List Char)) : List Char := l.getLastD []

/-- Python `s.replace(old, '')`: left-to-right removal of every
non-overlapping occurrence of `old`. -/
def pyRemoveAll (old : List Char) : List Char → List Char
  | [] => []
  | c :: rest =>
    if h : old ≠ [] ∧ old.isPrefixOf (c :: rest) then
      pyRemoveAll old ((c :: rest).drop old.length)
    else
      c :: pyRemoveAll old rest
termination_by cs => cs.length
decreasing_by
  · have hlen : 0 < old.length := List.length_pos.mpr h.1
    simp only [List.length_drop, List.length_cons]
    omega
  · simp only [List.length_cons]
    omega

/-- Python `s <= t` on strings: lexicographic comparison by code points. -/
def lexLe : List Char → List Char → Bool
  | [], _ => true
  | _ :: _, [] => false
  | a :: as, b :: bs => if a < b then true else if a = b then lexLe as bs else false

/-- Python `s < t` on strings: strict lexicographic comparison by code points. -/
def lexLt : List Char → List Char → Bool
  | [], [] => false
  | [], _ :: _ => true
  | _ :: _, [] => false
  | a :: as, b :: bs => if a < b then true else if a = b then lexLt as bs else false

/-- Python `s.startswith(p)`. -/
def pyStartsWith (s p : List Char) : Bool := p.isPrefixOf s

/-- Python `s.endswith(p)`. -/
def pyEndsWith (s p : List Char) : Bool := p.isSuffixOf s

/-- Python `str.isspace` characters relevant to `rstrip()`. -/
def pyIsSpace (c : Char) : Bool :=
  c = ' ' || c = '\t' || c = '\n' || c = '\r' || c = '\x0b' || c = '\x0c'

/-- Python `s.rstrip()`. -/
def pyRstrip (cs : List Char) : List Char :=
  (cs.reverse.dropWhile pyIsSpace).reverse

/-- Value of a pure digit string, `none` if empty or not all digits. -/
def digitsToNat? (ds : List Char) : Option Nat :=
  if ds = [] then none
  else if ds.all Char.isDigit then
    some (ds.foldl (fun n c => 10 * n + (c.toNat - 48)) 0)
  else none

/-- Python `int(token)` for the plain tokens appearing here: an optional
sign followed by decimal digits (underscores/surrounding whitespace are not
modelled; the tokens come from `split(' ')` of a digit sequence). -/
def pyInt? : List Char → Option Int
  | '-' :: ds => (digitsToNat? ds).map (fun n => -(n : Int))
  | '+' :: ds => (digitsToNat? ds).map (fun n => (n : Int))
  | ds => (digitsToNat? ds).map (fun n => (n : Int))

/-! ### mnasnet.py: `_round_to_multiple_of` (claim C8)

Source (`mnasnet.py` lines 97–103):
```
new_val = max(divisor, int(val + divisor / 2) // divisor * divisor)
return new_val if new_val >= round_up_bias * val else new_val + divisor
```
For an integer `val`, `int(val + divisor / 2)` is `val + divisor // 2`
(the float sum is exact and truncation floors it), so the whole first line
is `Nat` arithmetic; the comparison against `round_up_bias * val` is exact
rational arithmetic (0.9 and `val` are exactly representable). -/

def _round_to_multiple_of (val divisor : Nat) (round_up_bias : Rat) : Nat :=
  let new_val := max divisor ((val + divisor / 2) / divisor * divisor)
  if round_up_bias * (val : Rat) ≤ (new_val : Rat) then new_val else new_val + divisor

/-! ### Python dicts as association lists -/

/-- Python `d[k] = v`: replace the entry of key `k`, or append a new one. -/
def dictSet {α : Type} (d : List (String × α)) (k : String) (v : α) : List (String × α) :=
  match d with
  | [] => [(k, v)]
  | (k', v') :: rest => if k' = k then (k, v) :: rest else (k', v') :: dictSet rest k v

/-- Python `d[k]` / `k in d`. -/
def dictGet? {α : Type} (d : List (String × α)) (k : String) : Option α :=
  match d with
  | [] => none
  | (k', v') :: rest => if k' = k then some v' else dictGet? rest k

/-- Python `defaultdict(list)`: `d[k].append(v)`. -/
def dictAppend {α : Type} (d : List (String × List α)) (k : String) (v : α) :
    List (String × List α) :=
  match d with
  | [] => [(k, [v])]
  | (k', vs) :: rest => if k' = k then (k', vs ++ [v]) :: rest else (k', vs) :: dictAppend rest k v

/-! ### The data model of `_graph_utils.py`

A `torch._C.Node` of the inlined trace graph, reduced to exactly the data the
code reads from it: `node.kind()`, `node.scopeName()`, the `debugName()`s of
`node.inputs()` and of `node.outputs()`.  `nid` models object identity
(Python `in` on lists of trace nodes and the `visited` set compare by
identity). -/

structure TraceNode where
  nid : Nat
  kind : String
  scopeName : String
  inputs : List String
  outputs : List String
deriving DecidableEq

/-- `NodePyGroup` (source lines 173–228), reduced to its stored fields.  The
`nodes`/`sub_node_names` rendering of `add_nodes` duplicates `node_cpps` and
is read by no claim, so it is not repeated here.  `auxiliary` is the optional
auxiliary dict; the only values the claims inspect are the dict's keys, so
entries are modelled with a placeholder `Int` payload. -/
structure NodePyGroup where
  name : String
  unique_name : String
  type : String
  op_type : String
  node_cpps : List TraceNode
  inputs : List String
  outputs : List String
  auxiliary : Option (List (String × Int))
deriving DecidableEq

/-! ### `parse_traced_name` (source lines 27–32, claim C6) -/

def parse_traced_name (module_name : String) : String :=
  let pre := "TracedModule[".data
  let suf := "]".data
  if pyStartsWith module_name.data pre && pyEndsWith module_name.data suf then
    String.mk ((module_name.data.drop pre.length).rdrop suf.length)
  else
    module_name

/-! ### `_get_module_name` (source lines 598–616, claim C6)

`re.findall(r'\[(.*?)\]', scope_name)`: scan left to right; at each `[`,
lazily capture up to the first following `]` (`.` does not cross a newline);
on success resume after the `]`, on failure resume after the `[`. -/

def splitAtRB : (cs : List Char) → Option (List Char × { l : List Char // l.length ≤ cs.length })
  | [] => none
  | ']' :: rest => some ([], ⟨rest, by simp⟩)
  | '\n' :: _ => none
  | c :: rest =>
    match splitAtRB rest with
    | none => none
    | some (seg, ⟨l, hl⟩) => some (c :: seg, ⟨l, by simp; omega⟩)

def bracketSegs : List Char → List (List Char)
  | [] => []
  | '[' :: rest =>
    match splitAtRB rest with
    | some (seg, rest') => seg :: bracketSegs rest'.1
    | none => bracketSegs rest
  | _ :: rest => bracketSegs rest
termination_by cs => cs.length
decreasing_by
  · have := rest'.2
    simp only [List.length_cons]
    omega
  · simp only [List.length_cons]
    omega
  · simp only [List.length_cons]
    omega

/-- `_get_module_name`, with `torch.__version__` made an explicit parameter;
Python `>=` on version strings is lexicographic comparison by code points. -/
def _get_module_name (torch_version : String) (scope_name : String) : String :=
  if lexLe "1.4.0".data torch_version.data then
    String.mk (pyRemoveAll "__module.".data (pyLast (pySplitChar '/' scope_name.data)))
  else
    String.mk (pyJoinChar '.' (bracketSegs scope_name.data))

/-! ### `_build_index` (source lines 618–630, claims C10 and C4)

The `assert not output in output_to_node` is modelled by returning
`Except.error` with the assertion's message. -/

def buildIndexOutputs (node : NodePyGroup) (output_to_node : List (String × NodePyGroup)) :
    List String → Except String (List (String × NodePyGroup))
  | [] => .ok output_to_node
  | o :: rest =>
    if (dictGet? output_to_node o).isSome then
      .error "One output cannot be generated by multiple nodes"
    else
      buildIndexOutputs node (dictSet output_to_node o node) rest

def buildIndexGo :
    List NodePyGroup → List (String × NodePyGroup) → List (String × List NodePyGroup) →
    List (String × NodePyGroup) →
    Except String (List (String × NodePyGroup) × List (String × List NodePyGroup) ×
      List (String × NodePyGroup))
  | [], name_to_node, input_to_node, output_to_node =>
    .ok (name_to_node, input_to_node, output_to_node)
  | node :: rest, name_to_node, input_to_node, output_to_node =>
    let name_to_node' := dictSet name_to_node node.unique_name node
    let input_to_node' := node.inputs.foldl (fun d i => dictAppend d i node) input_to_node
    match buildIndexOutputs node output_to_node node.outputs with
    | .error e => .error e
    | .ok output_to_node' => buildIndexGo rest name_to_node' input_to_node' output_to_node'

def _build_index (nodes_op : List NodePyGroup) :
    Except String (List (String × NodePyGroup) × List (String × List NodePyGroup) ×
      List (String × NodePyGroup)) :=
  buildIndexGo nodes_op [] [] []

/-! ### `find_predecessors` / `find_successors` (source lines 756–801, claim C4)

Both methods read the indices built by `_build_index`; the indices are
explicit parameters here.  Python raises `KeyError` when `unique_name` is
absent from `name_to_node`; the claims only query names of node groups of
the built graph, for which the entry exists, so the absent case is modelled
as `[]`. -/

def find_predecessors (name_to_node output_to_node : List (String × NodePyGroup))
    (unique_name : String) : List String :=
  match dictGet? name_to_node unique_name with
  | none => []
  | some node =>
    node.inputs.foldl
      (fun acc i =>
        match dictGet? output_to_node i with
        | none => acc
        | some node_py => acc ++ [node_py.unique_name]) []

def find_successors (name_to_node : List (String × NodePyGroup))
    (input_to_node : List (String × List NodePyGroup)) (unique_name : String) : List String :=
  match dictGet? name_to_node unique_name with
  | none => []
  | some node =>
    node.outputs.foldl
      (fun acc o =>
        match dictGet? input_to_node o with
        | none => acc
        | some nodes_py => acc ++ nodes_py.map (fun n => n.unique_name)) []

/-! ### `_expand_module_node` (source lines 418–485, claim C2)

`queue.Queue` is FIFO: modelled as a list dequeued at the head and enqueued
at the tail.  Python keeps `node_group` (a list) and `visited` (a set) in
lockstep: both start from the seed node, and every merged node is appended
to both in the same branch, so one list `visited` models both; the group
handed to `NodePyGroup` is that list.  The `output_to_node`/`input_to_node`
arguments are the whole-graph indices of `_build_graph` (plain dict
comprehensions, hence one node per debug name), passed as functions
`String → Option TraceNode`. -/

structure ExpandState where
  queue : List TraceNode
  visited : List TraceNode
  ins : List String
  outs : List String
deriving DecidableEq

def expandInputStep (output_to_node : String → Option TraceNode) (nodes : List TraceNode)
    (st : ExpandState) (input_name : String) : ExpandState :=
  match output_to_node input_name with
  | some predecessor_node =>
    if predecessor_node ∈ nodes then
      if predecessor_node ∈ st.visited then st
      else { st with queue := st.queue ++ [predecessor_node],
                     visited := st.visited ++ [predecessor_node] }
    else { st with ins := st.ins ++ [input_name] }
  | none => { st with ins := st.ins ++ [input_name] }

def expandOutputStep (input_to_node : String → Option TraceNode) (nodes : List TraceNode)
    (st : ExpandState) (output_name : String) : ExpandState :=
  match input_to_node output_name with
  | some successor_node =>
    if successor_node ∈ nodes then
      if successor_node ∈ st.visited then st
      else { st with queue := st.queue ++ [successor_node],
                     visited := st.visited ++ [successor_node] }
    else { st with outs := st.outs ++ [output_name] }
  | none => { st with outs := st.outs ++ [output_name] }

/-- One iteration of the while loop: `curr_node` has been dequeued, its
inputs are scanned, then its outputs. -/
def expandProcessNode (output_to_node input_to_node : String → Option TraceNode)
    (nodes : List TraceNode) (st : ExpandState) (curr_node : TraceNode) : ExpandState :=
  let st₁ := curr_node.inputs.foldl (expandInputStep output_to_node nodes) st
  curr_node.outputs.foldl (expandOutputStep input_to_node nodes) st₁

def expandLoop (output_to_node input_to_node : String → Option TraceNode)
    (nodes : List TraceNode) : Nat → ExpandState → ExpandState
  | 0, st => st
  | fuel + 1, st =>
    match h : st.queue with
    | [] => st
    | curr_node :: rest =>
      expandLoop output_to_node input_to_node nodes fuel
        (expandProcessNode output_to_node input_to_node nodes { st with queue := rest } curr_node)

/-- `_expand_module_node`.  One fuel unit is spent per dequeue; every node is
enqueued at most once (guarded by `visited`), so `2 * nodes.length + 1`
dominates the measure `2·|unvisited| + |queue|` of the initial state and the
loop provably drains its queue within this fuel (`expandLoop` lemmas below).
The `global_count` increment only feeds the callers' naming. -/
def _expand_module_node (output_to_node input_to_node : String → Option TraceNode)
    (nodes : List TraceNode) (node : TraceNode)
    (node_name unique_name op_type module_type : String) : NodePyGroup :=
  let op_type' := if op_type = "" then node.kind else op_type
  let final := expandLoop output_to_node input_to_node nodes (2 * nodes.length + 1)
    ⟨[node], [node], [], []⟩
  ⟨node_name, unique_name, module_type, op_type', final.visited, final.ins, final.outs, none⟩

/-! ### `_expand_non_prim_node` (source lines 242–299, claim C5)

Unlike `_expand_module_node`, this loop has no `visited` set: a prim
predecessor inside `nodes` is appended to the group and re-enqueued every
time an edge reaches it.  The loop terminates on the acyclic graphs produced
by tracing; it is modelled with explicit fuel and claim C5 is proved for
every fuel, hence for whichever fuel exhausts the queue on an actual run.
The trailing `_visit_node` walk (source lines 301–347) only fills
`auxiliary['input_args']` (or raises on graphs it does not expect) and
touches neither `node_cpps` nor `outputs`, so it is not modelled and
`auxiliary` is left `none` here. -/

structure NPState where
  queue : List TraceNode
  node_group : List TraceNode
  ins : List String
deriving DecidableEq

def npInputStep (output_to_node : String → Option TraceNode) (nodes : List TraceNode)
    (st : NPState) (input_name : String) : NPState :=
  match output_to_node input_name with
  | some predecessor_node =>
    if predecessor_node ∈ nodes then
      if pyStartsWith predecessor_node.kind.data "prim::".data then
        { st with node_group := st.node_group ++ [predecessor_node],
                  queue := st.queue ++ [predecessor_node] }
      else { st with ins := st.ins ++ [input_name] }
    else { st with ins := st.ins ++ [input_name] }
  | none => { st with ins := st.ins ++ [input_name] }

def npLoop (output_to_node : String → Option TraceNode) (nodes : List TraceNode) :
    Nat → NPState → NPState
  | 0, st => st
  | fuel + 1, st =>
    match st.queue with
    | [] => st
    | curr_node :: rest =>
      npLoop output_to_node nodes fuel
        (curr_node.inputs.foldl (npInputStep output_to_node nodes) { st with queue := rest })

/-- ASCII approximation of Python `str.isidentifier` (scope names and node
kinds are ASCII). -/
def pyIsIdentAscii (cs : List Char) : Bool :=
  match cs with
  | [] => false
  | c :: rest => (c.isAlpha || c = '_') && rest.all (fun d => d.isAlphanum || d = '_')

/-- Python `re.sub('[^0-9a-zA-Z_]', '_', s)`. -/
def pySubNonIdent (cs : List Char) : List Char :=
  cs.map (fun c => if c.isAlphanum || c = '_' then c else '_')

def _expand_non_prim_node (output_to_node : String → Option TraceNode)
    (nodes : List TraceNode) (node : TraceNode) (torch_version : String)
    (global_count : Nat) (module_type : String) (fuel : Nat) : NodePyGroup :=
  let node_name := _get_module_name torch_version node.scopeName ++ "." ++ node.kind
    ++ "." ++ toString global_count
  let unique_name := if pyIsIdentAscii node_name.data then node_name
    else String.mk (pySubNonIdent node_name.data)
  let final := npLoop output_to_node nodes fuel ⟨[node], [node], []⟩
  let outputs := node.outputs
  ⟨node_name, unique_name, module_type, node.kind, final.node_group, final.ins, outputs, none⟩

/-! ### `_extract_cat_info` and the cat branch of `_extract_auxiliary_info`
(source lines 487–538 and 747–754, claim C1) -/

/-- `_extract_cat_info`.  Its first statement is `return {}  # TODO: hack`,
so the function returns the empty dict: the extraction of `'cat_dim'`,
`'out_shape'`, `'in_order'` and `'in_shape'` documented by its docstring and
written below that line is unreachable. -/
def _extract_cat_info (node_group : NodePyGroup) (cpp_node : TraceNode) :
    List (String × Int) :=
  []

/-- Python `dict.update(new)`. -/
def dictUpdate (d new : List (String × Int)) : List (String × Int) :=
  new.foldl (fun acc kv => dictSet acc kv.1 kv.2) d

/-- The `elif node_group.op_type == CAT_KIND` branch of
`_extract_auxiliary_info` applied to one node group: take element `[0]` of
`filter(lambda x: x.kind() == node_group.op_type, node_group.node_cpps)`
(Python raises `IndexError` when the filter is empty, impossible for a group
built around an `aten::cat` seed; that case is modelled as the identity),
then set `auxiliary` to the cat info, or update the existing dict with it. -/
def extractAuxiliaryCat (node_group : NodePyGroup) : NodePyGroup :=
  match (node_group.node_cpps.filter (fun x => x.kind == node_group.op_type)).head? with
  | none => node_group
  | some cpp_node =>
    match node_group.auxiliary with
    | none =>
      { node_group with auxiliary := some (_extract_cat_info node_group cpp_node) }
    | some aux =>
      { node_group with auxiliary := some (dictUpdate aux (_extract_cat_info node_group cpp_node)) }

/-! ### `build_module_hierarchy` (source lines 351–416, claim C3)

The nested class `TreeNode`: `child_tnodes` is a Python dict from local name
to child (insertion-ordered, one entry per key), `graph_nodes` the list of
node groups attached to the tree node.  An attached `NodePyGroup` is
identified here by its `name` string — the same string whose dot-split
drives `attach_node_to_tree`'s walk. -/

inductive TreeNode where
  | mk (local_name full_name : String) (graph_nodes : List String)
       (child_tnodes : List (String × TreeNode))

def TreeNode.local_name : TreeNode → String
  | .mk l _ _ _ => l

def TreeNode.full_name : TreeNode → String
  | .mk _ f _ _ => f

def TreeNode.graph_nodes : TreeNode → List String
  | .mk _ _ g _ => g

def TreeNode.child_tnodes : TreeNode → List (String × TreeNode)
  | .mk _ _ _ c => c

/-- `'.'.join(ls)`. -/
def dotJoinS (ls : List String) : String :=
  String.mk (pyJoinChar '.' (ls.map String.data))

/-- `s.split('.')`. -/
def pySplitDotS (s : String) : List String :=
  (pySplitChar '.' s.data).map String.mk

/-- `insert_scope_name(root, name_slices)` (source lines 368–373), written
with an accumulator: `acc` is the prefix of `name_slices` already consumed,
so the full name `'.'.join(name_slices[:i+1])` of a newly created child is
`dotJoinS (acc ++ [name])`. -/
def insert_scope_name : TreeNode → List String → List String → TreeNode
  | t, _, [] => t
  | t, acc, name :: rest =>
    let child :=
      match dictGet? t.child_tnodes name with
      | some c => c
      | none => TreeNode.mk name (dotJoinS (acc ++ [name])) [] []
    let child' := insert_scope_name child (acc ++ [name]) rest
    TreeNode.mk t.local_name t.full_name t.graph_nodes (dictSet t.child_tnodes name child')

/-- `attach_node_to_tree(root, name_slices, node_pygroup)` (source lines
388–395): walk down while each slice names an existing child; at the first
missing slice attach the group to the current tree node and stop; when the
walk consumes every slice, the loop ends without attaching anything. -/
def attach_node_to_tree : TreeNode → List String → String → TreeNode
  | t, [], _ => t
  | t, name :: rest, gname =>
    match dictGet? t.child_tnodes name with
    | some c =>
      TreeNode.mk t.local_name t.full_name t.graph_nodes
        (dictSet t.child_tnodes name (attach_node_to_tree c rest gname))
    | none => TreeNode.mk t.local_name t.full_name (t.graph_nodes ++ [gname]) t.child_tnodes

/-- Source line 402: `node.scopeName().split('/')[-1].replace('__module.', '')`
(the PyTorch ≥ 1.4 scope-name transformation, also the one of
`_get_module_name`). -/
def hierScopeName (s : String) : String :=
  String.mk (pyRemoveAll "__module.".data (pyLast (pySplitChar '/' s.data)))

/-- Phase one of `build_module_hierarchy`: insert the transformed, dot-split
scope name of every trace graph node (in graph order) under the root. -/
def buildHierarchyPhase1 (scope_names : List String) : TreeNode :=
  scope_names.foldl (fun t s => insert_scope_name t [] (pySplitDotS (hierScopeName s)))
    (TreeNode.mk "root" "root" [] [])

/-- `build_module_hierarchy`, as a function of the trace graph nodes' scope
names and of the `name` strings of the node groups of `name_to_node` (in
iteration order). -/
def build_module_hierarchy (scope_names group_names : List String) : TreeNode :=
  group_names.foldl (fun t g => attach_node_to_tree t (pySplitDotS g) g)
    (buildHierarchyPhase1 scope_names)

/-- Does the dot-split path exist below `t` (every slice names a child)? -/
def pathExists : TreeNode → List String → Bool
  | _, [] => true
  | t, name :: rest =>
    match dictGet? t.child_tnodes name with
    | some c => pathExists c rest
    | none => false

/-- The path `slices` exists below `t` and every tree node along it carries
the local name of its slice and the dot-join of the local names from the
root as `full_name` (`acc` = slices consumed so far). -/
def pathConsistent : TreeNode → List String → List String → Prop
  | _, _, [] => True
  | t, acc, name :: rest =>
    ∃ c, dictGet? t.child_tnodes name = some c ∧ c.local_name = name ∧
      c.full_name = dotJoinS (acc ++ [name]) ∧ pathConsistent c (acc ++ [name]) rest

mutual

def allGraphNodes : TreeNode → List String
  | .mk _ _ gs cs => gs ++ allGraphNodesL cs

def allGraphNodesL : List (String × TreeNode) → List String
  | [] => []
  | c :: rest => allGraphNodes c.2 ++ allGraphNodesL rest

end

mutual

def TreeNodeOK : List String → TreeNode → Prop
  | acc, .mk _ _ _ cs => TreeNodeOKL acc cs

def TreeNodeOKL : List String → List (String × TreeNode) → Prop
  | _, [] => True
  | acc, (n, c) :: rest =>
    (c.local_name = n ∧ c.full_name = dotJoinS (acc ++ [n]) ∧ TreeNodeOK (acc ++ [n]) c) ∧
      TreeNodeOKL acc rest

end

/-! ### `parse_mnasnet_block` / `mnasnet_any` (mnasnet.py lines 212–251, claim C7) -/

def _MOBILENET_V2_FILTERS : List Nat := [16, 24, 32, 64, 96, 160, 320]

def _MOBILENET_V2_NUM_LAYERS : List Nat := [1, 2, 3, 4, 3, 3, 1]

/-- Python dict with int keys, as built by `for idx, op in enumerate(...)`. -/
def intDictGet? {α : Type} (d : List (Int × α)) (k : Int) : Option α :=
  match d with
  | [] => none
  | (k', v') :: rest => if k' = k then some v' else intDictGet? rest k

def ID_TO_OP : List (Int × String) :=
  (["conv", "mconv", "dconv"].enum).map (fun p => ((p.1 : Int), p.2))

def ID_TO_FILTERS : List (Int × Rat) :=
  ([(3 : Rat)/4, 1, 5/4].enum).map (fun p => ((p.1 : Int), p.2))

def ID_TO_KERNEL : List (Int × Nat) :=
  ([3, 5].enum).map (fun p => ((p.1 : Int), p.2))

def ID_TO_SKIPS : List (Int × Bool) :=
  ([false, true].enum).map (fun p => ((p.1 : Int), p.2))

/-- The per-stage `ID_TO_LAYERS` table: rebuilt in full on every loop
iteration from `[0, 1] + ([-1] if _MOBILENET_V2_NUM_LAYERS[i] > 1 else [0])`
(`i` is always < 7 at the call sites, so the `getD` default is never read). -/
def ID_TO_LAYERS (i : Nat) : List (Int × Int) :=
  ((([0, 1] ++ (if 1 < _MOBILENET_V2_NUM_LAYERS.getD i 0 then [-1] else [0]) : List Int)).enum).map
    (fun p => ((p.1 : Int), p.2))

structure BlockDef where
  convop : List String
  num_layers : List Int
  filters : List Rat
  kernel_size : List Nat
  skips : List Bool
deriving DecidableEq

/-- `line.rstrip()[1:-1].split(' ')`. -/
def pyTokens (line : String) : List (List Char) :=
  pySplitChar ' ' (((pyRstrip line.data).drop 1).rdrop 1)

/-- One iteration of the stage loop: the five table lookups for stage `i`
(`int()` failure on a non-integer token and a `KeyError` on an
out-of-range id are both Python exceptions, modelled as `none`). -/
def parseStage (tokens : List (List Char)) (i : Nat) :
    Option (String × Int × Rat × Nat × Bool) := do
  let t0 ← (tokens.get? (i*5)).bind pyInt?
  let op ← intDictGet? ID_TO_OP t0
  let t1 ← (tokens.get? (i*5+1)).bind pyInt?
  let nl ← intDictGet? (ID_TO_LAYERS i) t1
  let t2 ← (tokens.get? (i*5+2)).bind pyInt?
  let fl ← intDictGet? ID_TO_FILTERS t2
  let t3 ← (tokens.get? (i*5+3)).bind pyInt?
  let ks ← intDictGet? ID_TO_KERNEL t3
  let t4 ← (tokens.get? (i*5+4)).bind pyInt?
  let sk ← intDictGet? ID_TO_SKIPS t4
  some (op, nl, fl, ks, sk)

def parseStagesGo (tokens : List (List Char)) : List Nat → BlockDef → Option BlockDef
  | [], bd => some bd
  | i :: rest, bd =>
    match parseStage tokens i with
    | none => none
    | some (op, nl, fl, ks, sk) =>
      parseStagesGo tokens rest
        ⟨bd.convop ++ [op], bd.num_layers ++ [nl], bd.filters ++ [fl],
         bd.kernel_size ++ [ks], bd.skips ++ [sk]⟩

/-- `parse_mnasnet_block` (mnasnet.py lines 224–251): the
`assert len(tokens) == 7*5` is modelled as `none` on failure. -/
def parse_mnasnet_block (line : String) : Option BlockDef :=
  let tokens := pyTokens line
  if tokens.length = 7 * 5 then parseStagesGo tokens (List.range 7) ⟨[], [], [], [], []⟩
  else none

/-- Python `int()` truncation of an exact rational: toward zero. -/
def pyIntOfRat (q : Rat) : Int :=
  if 0 ≤ q then ⌊q⌋ else ⌈q⌉

/-- The constructor arguments `MNASNet(1.0, filters, convops, kernel_size,
num_layers, skips)` records; the `MNASNet.__init__` asserts
(`alpha > 0.0`, all five per-stage lists of length 7) guard construction. -/
structure MNASNetArgs where
  alpha : Rat
  depths : List Int
  convops : List String
  kernel_sizes : List Nat
  num_layers : List Int
  skips : List Bool
deriving DecidableEq

/-- `mnasnet_any` (mnasnet.py lines 212–222):
`filters = [int(a * b) for a, b in zip(_MOBILENET_V2_FILTERS, filter_multipliers)]`,
`num_layers = [a + b for a, b in zip(_MOBILENET_V2_NUM_LAYERS, num_layer_deltas)]`,
then `MNASNet(1.0, filters, convops, kernel_size, num_layers, skips)`
(whose failing asserts are modelled as `none`). -/
def mnasnet_any (convops : List String) (filter_multipliers : List Rat)
    (kernel_size : List Nat) (num_layer_deltas : List Int) (skips : List Bool) :
    Option MNASNetArgs :=
  let filters := List.zipWith (fun (a : Nat) (b : Rat) => pyIntOfRat ((a : Rat) * b))
    _MOBILENET_V2_FILTERS filter_multipliers
  let num_layers := List.zipWith (fun (a : Nat) (b : Int) => (a : Int) + b)
    _MOBILENET_V2_NUM_LAYERS num_layer_deltas
  if filters.length = 7 ∧ convops.length = 7 ∧ kernel_size.length = 7 ∧
      num_layers.length = 7 ∧ skips.length = 7 then
    some ⟨1, filters, convops, kernel_size, num_layers, skips⟩
  else none

/-! ### `_extract_leaf_modules` (source lines 565–596, claim C9) -/

/-- The nested `is_parent(name1, name2)`: dot-split both names; `name1` must
have strictly fewer parts and every part of `name1` must equal the
corresponding part of `name2`. -/
def is_parent (name1 name2 : String) : Bool :=
  let parts1 := pySplitChar '.' name1.data
  let parts2 := pySplitChar '.' name2.data
  decide (parts1.length < parts2.length) && parts1.isPrefixOf parts2

/-- Python `sorted` on strings: sort by code-point lexicographic order. -/
def strLe (s t : String) : Prop := lexLe s.data t.data = true

instance strLeDecidable : DecidableRel strLe :=
  fun s t => inferInstanceAs (Decidable (lexLe s.data t.data = true))

/-- The loop of `_extract_leaf_modules` on the sorted name list: keep a name
iff it is the last one or is not a parent of its immediate successor. -/
def leafFilter : List String → List String
  | [] => []
  | [x] => [x]
  | x :: y :: rest => if is_parent x y then leafFilter (y :: rest) else x :: leafFilter (y :: rest)

/-- `_extract_leaf_modules`, as a function of the module-name list
(`sorted([x[0] for x in self.trace.named_modules() if x[0]])` is the sort of
that list). -/
def _extract_leaf_modules (module_names : List String) : List String :=
  leafFilter (List.insertionSort strLe module_names)

/-- Characters of Python identifiers (claim C9's "identifier segments"). -/
def identChar (c : Char) : Bool := c.isAlphanum || c = '_'

/-! ### Proof-layer definitions for claim C2 -/

/-- One merging step of `_expand_module_node`: `b` is reached from `a`
through the input index (predecessor) or the output index (successor) and
lies in the scope list `nodes`. -/
def adjStep (output_to_node input_to_node : String → Option TraceNode)
    (nodes : List TraceNode) (a b : TraceNode) : Prop :=
  (∃ name ∈ a.inputs, output_to_node name = some b ∧ b ∈ nodes) ∨
  (∃ name ∈ a.outputs, input_to_node name = some b ∧ b ∈ nodes)

/-- Reachability by repeated `adjStep`s. -/
def reaches (output_to_node input_to_node : String → Option TraceNode)
    (nodes : List TraceNode) : TraceNode → TraceNode → Prop :=
  Relation.ReflTransGen (adjStep output_to_node input_to_node nodes)

/-- A debug name whose mapped node (under the relevant index) is absent or
outside `nodes`: such names are collected into `inputs`/`outputs`. -/
def externalVia (f : String → Option TraceNode) (nodes : List TraceNode)
    (name : String) : Bool :=
  match f name with
  | some p => decide (p ∉ nodes)
  | none => true

/-- Syntactic characterization of one adjacency fold of the BFS: the nodes
appended to queue+visited and the names appended to the external list, as a
function of the visited list at the start of the fold. -/
def expandAdds (f : String → Option TraceNode) (nodes visited : List TraceNode) :
    List String → List TraceNode × List String
  | [] => ([], [])
  | name :: rest =>
    match f name with
    | some p =>
      if p ∈ nodes then
        if p ∈ visited then expandAdds f nodes visited rest
        else
          let r := expandAdds f nodes (visited ++ [p]) rest
          (p :: r.1, r.2)
      else
        let r := expandAdds f nodes visited rest
        (r.1, name :: r.2)
    | none =>
      let r := expandAdds f nodes visited rest
      (r.1, name :: r.2)

/-- Termination measure of the BFS loop. -/
def expandMeasure (nodes : List TraceNode) (st : ExpandState) : Nat :=
  2 * (nodes.toFinset \ st.visited.toFinset).card + st.queue.length

/-- The loop invariant of `_expand_module_node`'s BFS (claim C2): the queue
holds visited nodes without duplicates, the visited list is duplicate-free,
contains the seed, stays inside `nodes`, holds only nodes reachable from the
seed, every *processed* node (visited and no longer queued) has all its
in-`nodes` neighbours visited, and `ins`/`outs` hold exactly the external
debug names of edges of processed nodes. -/
def ExpandInv (output_to_node input_to_node : String → Option TraceNode)
    (nodes : List TraceNode) (seed : TraceNode) (st : ExpandState) : Prop :=
  (∀ x ∈ st.queue, x ∈ st.visited) ∧
  st.visited.Nodup ∧
  st.queue.Nodup ∧
  seed ∈ st.visited ∧
  (∀ x ∈ st.visited, x ∈ nodes) ∧
  (∀ x ∈ st.visited, reaches output_to_node input_to_node nodes seed x) ∧
  (∀ g ∈ st.visited, g ∉ st.queue →
    (∀ name ∈ g.inputs, ∀ p, output_to_node name = some p → p ∈ nodes → p ∈ st.visited) ∧
    (∀ name ∈ g.outputs, ∀ s, input_to_node name = some s → s ∈ nodes → s ∈ st.visited)) ∧
  (∀ name, name ∈ st.ins ↔ ∃ g ∈ st.visited, g ∉ st.queue ∧ name ∈ g.inputs ∧
    externalVia output_to_node nodes name = true) ∧
  (∀ name, name ∈ st.outs ↔ ∃ g ∈ st.visited, g ∉ st.queue ∧ name ∈ g.outputs ∧
    externalVia input_to_node nodes name = true)

/-! ### Spec-side decode tables for claim C7, written from the claim's words
("the fixed tables op in {conv, mconv, dconv}, filter multiplier in
{0.75, 1.0, 1.25}, kernel size in {3, 5}, skip in {False, True}, and layer
delta drawn from {0, 1, -1} when the stage's base layer count exceeds 1 and
from {0, 1, 0} otherwise"), to be proved equal to the enumerate-built dicts
of the source. -/

def opSpec (t : Int) : Option String :=
  if t = 0 then some "conv" else if t = 1 then some "mconv"
  else if t = 2 then some "dconv" else none

def filtersSpec (t : Int) : Option Rat :=
  if t = 0 then some (3/4) else if t = 1 then some 1
  else if t = 2 then some (5/4) else none

def kernelSpec (t : Int) : Option Nat :=
  if t = 0 then some 3 else if t = 1 then some 5 else none

def skipsSpec (t : Int) : Option Bool :=
  if t = 0 then some false else if t = 1 then some true else none

def layersSpec (i : Nat) (t : Int) : Option Int :=
  if t = 0 then some 0 else if t = 1 then some 1
  else if t = 2 then (if 1 < _MOBILENET_V2_NUM_LAYERS.getD i 0 then some (-1) else some 0)
  else none

/-! ### Concrete inputs used by witnesses and counterexamples -/

/-- An `aten::cat` node group (fresh from `_expand_non_prim_node`:
`auxiliary` still unset) containing its cat trace node. -/
def exCatGroup : NodePyGroup :=
  ⟨"m.cat", "m_cat_0", "func", "aten::cat",
   [⟨0, "aten::cat", "__module.m", ["i1", "i2"], ["o1"]⟩], ["i1", "i2"], ["o1"], none⟩

/-- A single node group listing the same output debug name twice. -/
def exDupOutGroup : NodePyGroup := ⟨"n", "n", "module", "Conv2d", [], [], ["a", "a"], none⟩

/-- Producer/consumer pair: `exP` outputs `"x"`, `exN` consumes it. -/
def exP : NodePyGroup := ⟨"p", "p", "module", "Conv2d", [], [], ["x"], none⟩

def exN : NodePyGroup := ⟨"n", "n", "module", "Conv2d", [], ["x"], ["y"], none⟩

/-- Concrete two-node trace graph for the C2 witness: `exN1 ⟶ exN2` through
debug name `"a"`. -/
def exN1 : TraceNode := ⟨1, "aten::conv2d", "__module.m", ["w"], ["a"]⟩

def exN2 : TraceNode := ⟨2, "aten::relu", "__module.m", ["a"], ["b"]⟩

def exOtn : String → Option TraceNode := fun s => if s = "a" then some exN1 else none

def exItn : String → Option TraceNode := fun s => if s = "a" then some exN2 else none

/-! # Theorems -/

/-! ## Association-list lemmas -/

theorem dictGet?_dictSet {α : Type} (d : List (String × α)) (k q : String) (v : α) :
    dictGet? (dictSet d k v) q = if q = k then some v else dictGet? d q := by
  induction d with
  | nil =>
    simp only [dictSet, dictGet?]
    by_cases h : q = k
    · rw [if_pos h.symm, if_pos h]
    · rw [if_neg (fun hk : k = q => h hk.symm), if_neg h]
  | cons e rest ih =>
    obtain ⟨k', v'⟩ := e
    simp only [dictSet]
    by_cases h : k' = k
    · rw [if_pos h]
      simp only [dictGet?]
      by_cases hq : q = k
      · rw [if_pos hq.symm, if_pos hq]
      · rw [if_neg (fun hk : k = q => hq hk.symm), if_neg hq,
          if_neg (fun hk : k' = q => hq (h ▸ hk).symm)]
    · rw [if_neg h]
      simp only [dictGet?]
      by_cases hq : k' = q
      · rw [if_pos hq, if_neg (fun hk : q = k => h (hq.trans hk)), if_pos hq]
      · rw [if_neg hq, ih]
        by_cases hqk : q = k
        · rw [if_pos hqk, if_pos hqk]
        · rw [if_neg hqk, if_neg hqk, if_neg hq]

theorem dictGet?_dictAppend {α : Type} (d : List (String × List α)) (k q : String) (v : α) :
    dictGet? (dictAppend d k v) q =
      if q = k then some ((dictGet? d k).getD [] ++ [v]) else dictGet? d q := by
  induction d with
  | nil =>
    simp only [dictAppend, dictGet?]
    by_cases h : q = k
    · rw [if_pos h.symm, if_pos h]
      rfl
    · rw [if_neg (fun hk : k = q => h hk.symm), if_neg h]
  | cons e rest ih =>
    obtain ⟨k', vs⟩ := e
    simp only [dictAppend]
    by_cases h : k' = k
    · rw [if_pos h]
      simp only [dictGet?]
      by_cases hq : q = k
      · rw [if_pos (h.trans hq.symm), if_pos hq, if_pos h]
        rfl
      · rw [if_neg (fun hk : k' = q => hq (h ▸ hk).symm), if_neg hq,
          if_neg (fun hk : k' = q => hq (h ▸ hk).symm)]
    · rw [if_neg h]
      simp only [dictGet?]
      by_cases hq : k' = q
      · rw [if_pos hq, if_neg (fun hk : q = k => h (hq.trans hk)), if_pos hq]
      · rw [if_neg hq, ih, if_neg h]
        by_cases hqk : q = k
        · rw [if_pos hqk, if_pos hqk]
        · rw [if_neg hqk, if_neg hqk, if_neg hq]

/-! ## Claim C8: `_round_to_multiple_of` -/

/-- C8, counterexample: at `(84, 8)` with the default bias, the lower
multiple of 8 is 80 (`8 ∣ 80 ≤ 84 < 80 + 8`), and 84 does not exceed it by
more than 10 percent (`84 ≤ 1.1 · 80`), yet the function returns 88, not 80:
the claim's sentence "it returns the lower multiple unless val exceeds it by
more than 10 percent" is false on the code (as the claim's own example
`(84, 8) ↦ 88` already shows). -/
theorem round_to_multiple_of_claim_cex :
    _round_to_multiple_of 84 8 (9/10) = 88 ∧ (8 ∣ 80 ∧ 80 ≤ 84 ∧ 84 < 80 + 8) ∧
    (84 : Rat) ≤ (1 + 1/10) * 80 ∧ _round_to_multiple_of 84 8 (9/10) ≠ 80 := by
  have h88 : _round_to_multiple_of 84 8 (9/10) = 88 := by norm_num [_round_to_multiple_of]
  refine ⟨h88, by norm_num, by norm_num, by rw [h88]; norm_num⟩

/-- C8 (amended): for positive integers `val` and `divisor` and a bias
`0 < b < 1`, `_round_to_multiple_of` returns a positive multiple of
`divisor` that is at least `divisor` and at least `b·val`, and exceeds the
clamped half-up rounded value by at most `divisor`; exactly: it equals `val`
rounded half-up to a multiple of `divisor` (clamped below at `divisor`),
plus one more `divisor` precisely when that rounded value falls below
`b·val`; with the default bias `0.9`, `(83, 8)` yields `80` and `(84, 8)`
yields `88`. -/
theorem round_to_multiple_of_amended (val divisor : Nat) (b : Rat)
    (hval : 0 < val) (hdiv : 0 < divisor) (hb0 : 0 < b) (hb1 : b < 1) :
    (divisor ∣ _round_to_multiple_of val divisor b ∧
     divisor ≤ _round_to_multiple_of val divisor b ∧
     b * (val : Rat) ≤ ((_round_to_multiple_of val divisor b : Nat) : Rat) ∧
     _round_to_multiple_of val divisor b
       ≤ max divisor ((val + divisor / 2) / divisor * divisor) + divisor) ∧
    (_round_to_multiple_of val divisor b =
      if ((max divisor ((val + divisor / 2) / divisor * divisor) : Nat) : Rat)
          < b * (val : Rat)
      then max divisor ((val + divisor / 2) / divisor * divisor) + divisor
      else max divisor ((val + divisor / 2) / divisor * divisor)) ∧
    _round_to_multiple_of 83 8 (9/10) = 80 ∧
    _round_to_multiple_of 84 8 (9/10) = 88 := by
  have hdvdN : divisor ∣ max divisor ((val + divisor / 2) / divisor * divisor) := by
    rcases max_choice divisor ((val + divisor / 2) / divisor * divisor) with h | h
    all_goals rw [h]
    all_goals first
    | exact Dvd.intro 1 (one_mul divisor).symm
    | exact dvd_mul_left divisor _
  have hrepr : _round_to_multiple_of val divisor b =
      if b * (val : Rat) ≤ ((max divisor ((val + divisor / 2) / divisor * divisor) : Nat) : Rat)
      then max divisor ((val + divisor / 2) / divisor * divisor)
      else max divisor ((val + divisor / 2) / divisor * divisor) + divisor := rfl
  have h83 : _round_to_multiple_of 83 8 (9/10) = 80 := by norm_num [_round_to_multiple_of]
  have h84 : _round_to_multiple_of 84 8 (9/10) = 88 := by norm_num [_round_to_multiple_of]
  by_cases hc : b * (val : Rat)
      ≤ ((max divisor ((val + divisor / 2) / divisor * divisor) : Nat) : Rat)
  · refine ⟨?_, ?_, h83, h84⟩
    · rw [hrepr, if_pos hc]
      exact ⟨hdvdN, le_max_left _ _, hc, Nat.le_add_right _ _⟩
    · rw [hrepr, if_pos hc, if_neg (not_lt.mpr hc)]
  · have hlt : val < max divisor ((val + divisor / 2) / divisor * divisor) + divisor := by
      have h3 : (val + divisor / 2) / divisor * divisor + (val + divisor / 2) % divisor
          = val + divisor / 2 := Nat.div_add_mod' _ _
      have h4 : (val + divisor / 2) % divisor < divisor := Nat.mod_lt _ hdiv
      have h5 : (val + divisor / 2) / divisor * divisor
          ≤ max divisor ((val + divisor / 2) / divisor * divisor) := le_max_right _ _
      omega
    refine ⟨?_, ?_, h83, h84⟩
    · rw [hrepr, if_neg hc]
      refine ⟨hdvdN.add dvd_rfl, le_trans (le_max_left _ _) (Nat.le_add_right _ _), ?_,
        le_refl _⟩
      calc b * (val : Rat) ≤ 1 * (val : Rat) := by
            apply mul_le_mul_of_nonneg_right hb1.le (Nat.cast_nonneg val)
        _ = (val : Rat) := one_mul _
        _ ≤ _ := by exact_mod_cast hlt.le
    · rw [hrepr, if_neg hc, if_pos (not_le.mp hc)]

/-- C8 witness: the amended theorem applied at `(83, 8)` with bias `0.9`. -/
theorem round_to_multiple_of_amended_witness :
    ((8 ∣ _round_to_multiple_of 83 8 (9/10) ∧ 8 ≤ _round_to_multiple_of 83 8 (9/10) ∧
      (9/10 : Rat) * ((83 : Nat) : Rat) ≤ ((_round_to_multiple_of 83 8 (9/10) : Nat) : Rat) ∧
      _round_to_multiple_of 83 8 (9/10) ≤ max 8 ((83 + 8 / 2) / 8 * 8) + 8) ∧
     (_round_to_multiple_of 83 8 (9/10) =
       if ((max 8 ((83 + 8 / 2) / 8 * 8) : Nat) : Rat) < (9/10 : Rat) * ((83 : Nat) : Rat)
       then max 8 ((83 + 8 / 2) / 8 * 8) + 8
       else max 8 ((83 + 8 / 2) / 8 * 8)) ∧
     _round_to_multiple_of 83 8 (9/10) = 80 ∧
     _round_to_multiple_of 84 8 (9/10) = 88) :=
  round_to_multiple_of_amended 83 8 (9/10) (by norm_num) (by norm_num) (by norm_num)
    (by norm_num)

/-! ## Claim C1: `_extract_cat_info` -/

/-- C1, code-bug evidence: for a node group with op_type `aten::cat`
(auxiliary unset), the cat branch of `_extract_auxiliary_info` sets
`auxiliary` to the empty dict — `_extract_cat_info` returns `{}` from its
first statement (`# TODO: hack`), its documented four-key extraction being
dead code — so none of the keys `'cat_dim'`, `'out_shape'`, `'in_order'`,
`'in_shape'` required by the claim (and by `_extract_cat_info`'s own
docstring) is present. -/
theorem extract_cat_info_code_bug :
    (extractAuxiliaryCat exCatGroup).auxiliary = some [] ∧
    dictGet? ((extractAuxiliaryCat exCatGroup).auxiliary.getD [("cat_dim", 0)]) "cat_dim" = none ∧
    dictGet? ((extractAuxiliaryCat exCatGroup).auxiliary.getD [("cat_dim", 0)]) "out_shape" = none ∧
    dictGet? ((extractAuxiliaryCat exCatGroup).auxiliary.getD [("cat_dim", 0)]) "in_order" = none ∧
    dictGet? ((extractAuxiliaryCat exCatGroup).auxiliary.getD [("cat_dim", 0)]) "in_shape" = none := by
  decide

/-! ## Claim C10 (and index lemmas shared with C4): `_build_index` -/

theorem buildIndexOutputs_ok_iff (node : NodePyGroup) (otn : List (String × NodePyGroup))
    (outs : List String) :
    (∃ otn', buildIndexOutputs node otn outs = .ok otn') ↔
      (outs.Nodup ∧ ∀ o ∈ outs, dictGet? otn o = none) := by
  induction outs generalizing otn with
  | nil => simp [buildIndexOutputs]
  | cons o rest ih =>
    by_cases h : (dictGet? otn o).isSome = true
    · simp only [buildIndexOutputs, if_pos h]
      constructor
      · rintro ⟨otn', h'⟩
        exact Except.noConfusion h'
      · rintro ⟨-, hall⟩
        rw [hall o (List.mem_cons_self o rest)] at h
        exact absurd h (by simp)
    · simp only [buildIndexOutputs, if_neg h]
      rw [ih]
      have hnone : dictGet? otn o = none := Option.not_isSome_iff_eq_none.mp h
      constructor
      · rintro ⟨hnd, hall⟩
        refine ⟨List.nodup_cons.mpr ⟨?_, hnd⟩, ?_⟩
        · intro hmem
          have h2 := hall o hmem
          rw [dictGet?_dictSet, if_pos rfl] at h2
          exact Option.noConfusion h2
        · intro o' ho'
          rcases List.mem_cons.mp ho' with h1 | h1
          · exact h1 ▸ hnone
          · have h2 := hall o' h1
            rw [dictGet?_dictSet] at h2
            by_cases he : o' = o
            · rw [if_pos he] at h2
              exact Option.noConfusion h2
            · rwa [if_neg he] at h2
      · rintro ⟨hnd, hall⟩
        obtain ⟨hno, hnd'⟩ := List.nodup_cons.mp hnd
        refine ⟨hnd', ?_⟩
        intro o' ho'
        rw [dictGet?_dictSet, if_neg (fun he : o' = o => hno (he ▸ ho'))]
        exact hall o' (List.mem_cons_of_mem _ ho')

theorem buildIndexOutputs_ok_get (node : NodePyGroup) (otn otn' : List (String × NodePyGroup))
    (outs : List String) (h : buildIndexOutputs node otn outs = .ok otn') (q : String) :
    dictGet? otn' q = if q ∈ outs then some node else dictGet? otn q := by
  induction outs generalizing otn with
  | nil =>
    simp only [buildIndexOutputs] at h
    have h' := Except.ok.inj h
    subst h'
    simp
  | cons o rest ih =>
    simp only [buildIndexOutputs] at h
    by_cases hs : (dictGet? otn o).isSome = true
    · rw [if_pos hs] at h
      exact Except.noConfusion h
    · rw [if_neg hs] at h
      rw [ih _ h, dictGet?_dictSet]
      by_cases hq : q ∈ rest
      · rw [if_pos hq, if_pos (List.mem_cons_of_mem _ hq)]
      · rw [if_neg hq]
        by_cases hqo : q = o
        · rw [if_pos hqo, if_pos (by rw [hqo]; exact List.mem_cons_self o rest)]
        · rw [if_neg hqo, if_neg (by
            intro hmem
            rcases List.mem_cons.mp hmem with h1 | h1
            · exact hqo h1
            · exact hq h1)]

theorem buildIndexGo_ok_iff (gs : List NodePyGroup) (ntn : List (String × NodePyGroup))
    (itn : List (String × List NodePyGroup)) (otn : List (String × NodePyGroup)) :
    (∃ r, buildIndexGo gs ntn itn otn = .ok r) ↔
      ((gs.flatMap (fun g => g.outputs)).Nodup ∧
        ∀ o ∈ gs.flatMap (fun g => g.outputs), dictGet? otn o = none) := by
  induction gs generalizing ntn itn otn with
  | nil => simp [buildIndexGo]
  | cons node rest ih =>
    simp only [buildIndexGo]
    cases hbo : buildIndexOutputs node otn node.outputs with
    | error e =>
      constructor
      · rintro ⟨r, hr⟩
        exact Except.noConfusion hr
      · rintro ⟨hnd, hall⟩
        have hex : ∃ otn', buildIndexOutputs node otn node.outputs = .ok otn' := by
          rw [buildIndexOutputs_ok_iff]
          rw [List.flatMap_cons, List.nodup_append] at hnd
          refine ⟨hnd.1, ?_⟩
          intro o ho
          exact hall o (by rw [List.flatMap_cons, List.mem_append]; exact Or.inl ho)
        rw [hbo] at hex
        obtain ⟨_, hx⟩ := hex
        exact Except.noConfusion hx
    | ok otn1 =>
      rw [ih]
      have hget := buildIndexOutputs_ok_get node otn otn1 node.outputs hbo
      obtain ⟨hnd0, hfresh0⟩ := (buildIndexOutputs_ok_iff node otn node.outputs).mp ⟨otn1, hbo⟩
      constructor
      · rintro ⟨hnd, hall⟩
        constructor
        · rw [List.flatMap_cons, List.nodup_append]
          refine ⟨hnd0, hnd, ?_⟩
          intro a ha hamem
          have h2 := hall a hamem
          rw [hget a, if_pos ha] at h2
          exact Option.noConfusion h2
        · intro o ho
          rw [List.flatMap_cons, List.mem_append] at ho
          rcases ho with h1 | h1
          · exact hfresh0 o h1
          · have h2 := hall o h1
            rw [hget o] at h2
            by_cases hmem : o ∈ node.outputs
            · rw [if_pos hmem] at h2
              exact Option.noConfusion h2
            · rwa [if_neg hmem] at h2
      · rintro ⟨hnd, hall⟩
        rw [List.flatMap_cons, List.nodup_append] at hnd
        obtain ⟨h1, h2, h3⟩ := hnd
        refine ⟨h2, ?_⟩
        intro o ho
        rw [hget o, if_neg (fun hmem => h3 hmem ho)]
        exact hall o (by rw [List.flatMap_cons, List.mem_append]; exact Or.inr ho)

theorem buildIndexGo_otn_some (gs : List NodePyGroup) (ntn : List (String × NodePyGroup))
    (itn : List (String × List NodePyGroup)) (otn : List (String × NodePyGroup))
    (r : List (String × NodePyGroup) × List (String × List NodePyGroup) ×
      List (String × NodePyGroup))
    (h : buildIndexGo gs ntn itn otn = .ok r) (q : String) (g : NodePyGroup) :
    dictGet? r.2.2 q = some g ↔
      (g ∈ gs ∧ q ∈ g.outputs) ∨
      (dictGet? otn q = some g ∧ ∀ g' ∈ gs, q ∉ g'.outputs) := by
  induction gs generalizing ntn itn otn with
  | nil =>
    simp only [buildIndexGo] at h
    have h' := Except.ok.inj h
    subst h'
    simp
  | cons node rest ih =>
    simp only [buildIndexGo] at h
    cases hbo : buildIndexOutputs node otn node.outputs with
    | error e =>
      rw [hbo] at h
      exact Except.noConfusion h
    | ok otn1 =>
      rw [hbo] at h
      have hget := buildIndexOutputs_ok_get node otn otn1 node.outputs hbo
      have hfresh1 := ((buildIndexGo_ok_iff rest _ _ otn1).mp ⟨r, h⟩).2
      rw [ih _ _ _ h]
      constructor
      · rintro (⟨hg, hq⟩ | ⟨hlook, hnot⟩)
        · exact Or.inl ⟨List.mem_cons_of_mem _ hg, hq⟩
        · rw [hget q] at hlook
          by_cases hmem : q ∈ node.outputs
          · rw [if_pos hmem] at hlook
            have hng : node = g := Option.some.inj hlook
            subst hng
            exact Or.inl ⟨List.mem_cons_self node rest, hmem⟩
          · rw [if_neg hmem] at hlook
            refine Or.inr ⟨hlook, ?_⟩
            intro g' hg'
            rcases List.mem_cons.mp hg' with h1 | h1
            · exact h1 ▸ hmem
            · exact hnot g' h1
      · rintro (⟨hg, hq⟩ | ⟨hlook, hnot⟩)
        · rcases List.mem_cons.mp hg with h1 | h1
          · subst h1
            refine Or.inr ⟨?_, ?_⟩
            · rw [hget q, if_pos hq]
            · intro g' hg' hqo
              have h2 := hfresh1 q (by
                rw [List.mem_flatMap]
                exact ⟨g', hg', hqo⟩)
              rw [hget q, if_pos hq] at h2
              exact Option.noConfusion h2
          · exact Or.inl ⟨h1, hq⟩
        · refine Or.inr ⟨?_, fun g' hg' => hnot g' (List.mem_cons_of_mem _ hg')⟩
          rw [hget q, if_neg (hnot node (List.mem_cons_self node rest))]
          exact hlook

theorem buildIndexGo_ntn_pres (gs : List NodePyGroup) (ntn : List (String × NodePyGroup))
    (itn : List (String × List NodePyGroup)) (otn : List (String × NodePyGroup))
    (r : List (String × NodePyGroup) × List (String × List NodePyGroup) ×
      List (String × NodePyGroup))
    (h : buildIndexGo gs ntn itn otn = .ok r) (u : String)
    (hu : ∀ g ∈ gs, g.unique_name ≠ u) :
    dictGet? r.1 u = dictGet? ntn u := by
  induction gs generalizing ntn itn otn with
  | nil =>
    simp only [buildIndexGo] at h
    have h' := Except.ok.inj h
    subst h'
    rfl
  | cons node rest ih =>
    simp only [buildIndexGo] at h
    cases hbo : buildIndexOutputs node otn node.outputs with
    | error e =>
      rw [hbo] at h
      exact Except.noConfusion h
    | ok otn1 =>
      rw [hbo] at h
      rw [ih _ _ _ h (fun g hg => hu g (List.mem_cons_of_mem _ hg)), dictGet?_dictSet,
        if_neg (fun he : u = node.unique_name =>
          hu node (List.mem_cons_self node rest) he.symm)]

theorem buildIndexGo_ntn_get (gs : List NodePyGroup) (ntn : List (String × NodePyGroup))
    (itn : List (String × List NodePyGroup)) (otn : List (String × NodePyGroup))
    (r : List (String × NodePyGroup) × List (String × List NodePyGroup) ×
      List (String × NodePyGroup))
    (h : buildIndexGo gs ntn itn otn = .ok r)
    (hnames : (gs.map (fun g => g.unique_name)).Nodup) (g : NodePyGroup) (hg : g ∈ gs) :
    dictGet? r.1 g.unique_name = some g := by
  induction gs generalizing ntn itn otn with
  | nil => exact absurd hg (List.not_mem_nil g)
  | cons node rest ih =>
    simp only [buildIndexGo] at h
    cases hbo : buildIndexOutputs node otn node.outputs with
    | error e =>
      rw [hbo] at h
      exact Except.noConfusion h
    | ok otn1 =>
      rw [hbo] at h
      rw [List.map_cons, List.nodup_cons] at hnames
      obtain ⟨hn1, hn2⟩ := hnames
      rcases List.mem_cons.mp hg with h1 | h1
      · subst h1
        rw [buildIndexGo_ntn_pres rest _ _ _ _ h g.unique_name
            (fun g' hg' he => hn1 (he ▸ List.mem_map_of_mem (fun x => x.unique_name) hg')),
          dictGet?_dictSet, if_pos rfl]
      · exact ih _ _ _ h hn2 h1

theorem foldDictAppend_mem (node : NodePyGroup) (names : List String)
    (d : List (String × List NodePyGroup)) (i : String) (g : NodePyGroup) :
    (∃ L, dictGet? (names.foldl (fun d' n => dictAppend d' n node) d) i = some L ∧ g ∈ L) ↔
      ((g = node ∧ i ∈ names) ∨ (∃ L, dictGet? d i = some L ∧ g ∈ L)) := by
  induction names generalizing d with
  | nil => simp
  | cons n rest ih =>
    rw [List.foldl_cons, ih]
    have hstep : (∃ L, dictGet? (dictAppend d n node) i = some L ∧ g ∈ L) ↔
        ((i = n ∧ g = node) ∨ (∃ L, dictGet? d i = some L ∧ g ∈ L)) := by
      rw [dictGet?_dictAppend]
      by_cases hin : i = n
      · subst hin
        rw [if_pos rfl]
        constructor
        · rintro ⟨L, hL, hgL⟩
          have hL' := Option.some.inj hL
          subst hL'
          rw [List.mem_append] at hgL
          rcases hgL with h1 | h1
          · right
            cases hd : dictGet? d i with
            | none => rw [hd] at h1; exact absurd h1 (List.not_mem_nil g)
            | some L0 => rw [hd] at h1; exact ⟨L0, rfl, h1⟩
          · left
            exact ⟨rfl, List.mem_singleton.mp h1⟩
        · rintro (⟨-, hgn⟩ | ⟨L, hL, hgL⟩)
          · exact ⟨_, rfl, by rw [List.mem_append]; exact Or.inr (hgn ▸ List.mem_singleton_self node)⟩
          · exact ⟨_, rfl, by rw [List.mem_append, hL]; exact Or.inl hgL⟩
      · rw [if_neg hin]
        constructor
        · rintro ⟨L, hL, hgL⟩
          exact Or.inr ⟨L, hL, hgL⟩
        · rintro (⟨he, -⟩ | ⟨L, hL, hgL⟩)
          · exact absurd he hin
          · exact ⟨L, hL, hgL⟩
    rw [hstep]
    constructor
    · rintro (⟨hgn, hmem⟩ | h2)
      · exact Or.inl ⟨hgn, List.mem_cons_of_mem _ hmem⟩
      · rcases h2 with ⟨hin, hgn⟩ | h3
        · exact Or.inl ⟨hgn, hin ▸ List.mem_cons_self n rest⟩
        · exact Or.inr h3
    · rintro (⟨hgn, hmem⟩ | h3)
      · rcases List.mem_cons.mp hmem with h1 | h1
        · exact Or.inr (Or.inl ⟨h1, hgn⟩)
        · exact Or.inl ⟨hgn, h1⟩
      · exact Or.inr (Or.inr h3)

theorem buildIndexGo_itn_mem (gs : List NodePyGroup) (ntn : List (String × NodePyGroup))
    (itn : List (String × List NodePyGroup)) (otn : List (String × NodePyGroup))
    (r : List (String × NodePyGroup) × List (String × List NodePyGroup) ×
      List (String × NodePyGroup))
    (h : buildIndexGo gs ntn itn otn = .ok r) (i : String) (g : NodePyGroup) :
    (∃ L, dictGet? r.2.1 i = some L ∧ g ∈ L) ↔
      ((g ∈ gs ∧ i ∈ g.inputs) ∨ (∃ L, dictGet? itn i = some L ∧ g ∈ L)) := by
  induction gs generalizing ntn itn otn with
  | nil =>
    simp only [buildIndexGo] at h
    have h' := Except.ok.inj h
    subst h'
    simp
  | cons node rest ih =>
    simp only [buildIndexGo] at h
    cases hbo : buildIndexOutputs node otn node.outputs with
    | error e =>
      rw [hbo] at h
      exact Except.noConfusion h
    | ok otn1 =>
      rw [hbo] at h
      rw [ih _ _ _ h, foldDictAppend_mem]
      constructor
      · rintro (⟨hg, hi⟩ | (⟨hgn, hi⟩ | h3))
        · exact Or.inl ⟨List.mem_cons_of_mem _ hg, hi⟩
        · exact Or.inl ⟨hgn ▸ List.mem_cons_self node rest, hgn ▸ hi⟩
        · exact Or.inr h3
      · rintro (⟨hg, hi⟩ | h3)
        · rcases List.mem_cons.mp hg with h1 | h1
          · exact Or.inr (Or.inl ⟨h1, h1 ▸ hi⟩)
          · exact Or.inl ⟨h1, hi⟩
        · exact Or.inr (Or.inr h3)

/-- C10, counterexample: a single node group whose output list contains the
same debug name twice makes `_build_index` raise the assertion, although no
two distinct node groups of the input share an output debug name — the
claim's "if and only if" fails in the "only if" direction. -/
theorem build_index_claim_cex :
    (_build_index [exDupOutGroup]).isOk = false ∧
    ¬ ∃ g1 ∈ [exDupOutGroup], ∃ g2 ∈ [exDupOutGroup],
        g1 ≠ g2 ∧ ∃ o ∈ g1.outputs, o ∈ g2.outputs := by
  decide

/-- C10 (amended): `_build_index` raises its assertion error iff some output
debug name occurs twice in the concatenation of the groups' output lists
(equivalently: two groups at distinct positions share an output name, or one
group lists the same name twice); when all output names are pairwise
distinct it succeeds, and the returned `output_to_node` maps a debug name
`q` to `g` exactly when `g` is a group of the input that lists `q` among its
outputs. -/
theorem build_index_amended (nodes_op : List NodePyGroup) :
    ((_build_index nodes_op).isOk = true ↔ (nodes_op.flatMap (fun g => g.outputs)).Nodup) ∧
    (∀ ntn itn otn, _build_index nodes_op = .ok (ntn, itn, otn) →
      ∀ q g, dictGet? otn q = some g ↔ g ∈ nodes_op ∧ q ∈ g.outputs) := by
  constructor
  · have hiff := buildIndexGo_ok_iff nodes_op [] [] []
    simp only [dictGet?, implies_true, and_true] at hiff
    rw [← hiff]
    unfold _build_index
    cases hb : buildIndexGo nodes_op [] [] [] with
    | error e => simp [Except.isOk, Except.toBool]
    | ok r => simp [Except.isOk, Except.toBool]
  · intro ntn itn otn h q g
    have hh := buildIndexGo_otn_some nodes_op [] [] [] (ntn, itn, otn) h q g
    simpa [dictGet?] using hh

/-- C10 witness: the amended theorem applied to the two-group graph
`exP ⟶ exN` (outputs `["x"]` and `["y"]`, all distinct), instantiated at the
output name `"x"` and the group `exP`. -/
theorem build_index_amended_witness :
    ((_build_index [exP, exN]).isOk = true ↔
      (([exP, exN].flatMap (fun g => g.outputs)).Nodup)) ∧
    (dictGet? [("x", exP), ("y", exN)] "x" = some exP ↔
      exP ∈ [exP, exN] ∧ "x" ∈ exP.outputs) :=
  ⟨(build_index_amended [exP, exN]).1,
   (build_index_amended [exP, exN]).2 [("p", exP), ("n", exN)] [("x", [exN])]
     [("x", exP), ("y", exN)] rfl "x" exP⟩

/-! ## Claim C4: `find_predecessors` / `find_successors` -/

theorem foldPreds_mem (otn : List (String × NodePyGroup)) (names : List String)
    (acc : List String) (s : String) :
    s ∈ names.foldl (fun acc i =>
        match dictGet? otn i with
        | none => acc
        | some node_py => acc ++ [node_py.unique_name]) acc ↔
      (s ∈ acc ∨ ∃ i ∈ names, ∃ p, dictGet? otn i = some p ∧ p.unique_name = s) := by
  induction names generalizing acc with
  | nil => simp
  | cons nm rest ih =>
    rw [List.foldl_cons]
    cases hd : dictGet? otn nm with
    | none =>
      simp only [hd]
      rw [ih]
      constructor
      · rintro (h1 | ⟨i, hi, p, hp, hs⟩)
        · exact Or.inl h1
        · exact Or.inr ⟨i, List.mem_cons_of_mem _ hi, p, hp, hs⟩
      · rintro (h1 | ⟨i, hi, p, hp, hs⟩)
        · exact Or.inl h1
        · rcases List.mem_cons.mp hi with h2 | h2
          · rw [h2, hd] at hp
            exact Option.noConfusion hp
          · exact Or.inr ⟨i, h2, p, hp, hs⟩
    | some p0 =>
      simp only [hd]
      rw [ih]
      constructor
      · rintro (h1 | ⟨i, hi, p, hp, hs⟩)
        · rw [List.mem_append] at h1
          rcases h1 with h2 | h2
          · exact Or.inl h2
          · exact Or.inr ⟨nm, List.mem_cons_self nm rest, p0, hd,
              (List.mem_singleton.mp h2).symm⟩
        · exact Or.inr ⟨i, List.mem_cons_of_mem _ hi, p, hp, hs⟩
      · rintro (h1 | ⟨i, hi, p, hp, hs⟩)
        · exact Or.inl (by rw [List.mem_append]; exact Or.inl h1)
        · rcases List.mem_cons.mp hi with h2 | h2
          · rw [h2, hd] at hp
            have hpp := Option.some.inj hp
            subst hpp
            exact Or.inl (by rw [List.mem_append]; exact Or.inr (by rw [hs]; exact List.mem_singleton_self _))
          · exact Or.inr ⟨i, h2, p, hp, hs⟩

theorem foldSuccs_mem (itn : List (String × List NodePyGroup)) (names : List String)
    (acc : List String) (s : String) :
    s ∈ names.foldl (fun acc o =>
        match dictGet? itn o with
        | none => acc
        | some nodes_py => acc ++ nodes_py.map (fun n => n.unique_name)) acc ↔
      (s ∈ acc ∨ ∃ o ∈ names, ∃ L, dictGet? itn o = some L ∧ ∃ q ∈ L, q.unique_name = s) := by
  induction names generalizing acc with
  | nil => simp
  | cons nm rest ih =>
    rw [List.foldl_cons]
    cases hd : dictGet? itn nm with
    | none =>
      simp only [hd]
      rw [ih]
      constructor
      · rintro (h1 | ⟨o, ho, L, hL, hq⟩)
        · exact Or.inl h1
        · exact Or.inr ⟨o, List.mem_cons_of_mem _ ho, L, hL, hq⟩
      · rintro (h1 | ⟨o, ho, L, hL, hq⟩)
        · exact Or.inl h1
        · rcases List.mem_cons.mp ho with h2 | h2
          · rw [h2, hd] at hL
            exact Option.noConfusion hL
          · exact Or.inr ⟨o, h2, L, hL, hq⟩
    | some L0 =>
      simp only [hd]
      rw [ih]
      constructor
      · rintro (h1 | ⟨o, ho, L, hL, hq⟩)
        · rw [List.mem_append] at h1
          rcases h1 with h2 | h2
          · exact Or.inl h2
          · rw [List.mem_map] at h2
            obtain ⟨q, hqL, hqs⟩ := h2
            exact Or.inr ⟨nm, List.mem_cons_self nm rest, L0, hd, q, hqL, hqs⟩
        · exact Or.inr ⟨o, List.mem_cons_of_mem _ ho, L, hL, hq⟩
      · rintro (h1 | ⟨o, ho, L, hL, hq⟩)
        · exact Or.inl (by rw [List.mem_append]; exact Or.inl h1)
        · rcases List.mem_cons.mp ho with h2 | h2
          · rw [h2, hd] at hL
            have hLL := Option.some.inj hL
            subst hLL
            obtain ⟨q, hqL, hqs⟩ := hq
            exact Or.inl (by
              rw [List.mem_append]
              exact Or.inr (by rw [List.mem_map]; exact ⟨q, hqL, hqs⟩))
          · exact Or.inr ⟨o, h2, L, hL, hq⟩

/-- C4: for node groups `p` and `n` of a successfully built index with
pairwise-distinct unique names, `p.unique_name` appears in
`find_predecessors n.unique_name` iff some input debug name of `n` is mapped
to `p` by the `output_to_node` index, and in that case `n.unique_name`
appears in `find_successors p.unique_name` (duality over `_build_index`). -/
theorem find_predecessors_successors_dual
    (nodes_op : List NodePyGroup) (ntn : List (String × NodePyGroup))
    (itn : List (String × List NodePyGroup)) (otn : List (String × NodePyGroup))
    (hok : _build_index nodes_op = .ok (ntn, itn, otn))
    (hnames : (nodes_op.map (fun g => g.unique_name)).Nodup)
    (p n : NodePyGroup) (hp : p ∈ nodes_op) (hn : n ∈ nodes_op) :
    (p.unique_name ∈ find_predecessors ntn otn n.unique_name ↔
      ∃ i ∈ n.inputs, dictGet? otn i = some p) ∧
    (p.unique_name ∈ find_predecessors ntn otn n.unique_name →
      n.unique_name ∈ find_successors ntn itn p.unique_name) := by
  have hntn_n : dictGet? ntn n.unique_name = some n :=
    buildIndexGo_ntn_get nodes_op [] [] [] (ntn, itn, otn) hok hnames n hn
  have hntn_p : dictGet? ntn p.unique_name = some p :=
    buildIndexGo_ntn_get nodes_op [] [] [] (ntn, itn, otn) hok hnames p hp
  have hpred : p.unique_name ∈ find_predecessors ntn otn n.unique_name ↔
      ∃ i ∈ n.inputs, ∃ q, dictGet? otn i = some q ∧ q.unique_name = p.unique_name := by
    unfold find_predecessors
    rw [hntn_n, foldPreds_mem]
    simp
  constructor
  · rw [hpred]
    constructor
    · rintro ⟨i, hi, q, hq, hs⟩
      have hq' := ((build_index_amended nodes_op).2 ntn itn otn hok i q).mp hq
      have hqp : q = p := List.inj_on_of_nodup_map hnames hq'.1 hp hs
      exact ⟨i, hi, hqp ▸ hq⟩
    · rintro ⟨i, hi, hq⟩
      exact ⟨i, hi, p, hq, rfl⟩
  · intro hmem
    rw [hpred] at hmem
    obtain ⟨i, hi, q, hq, hs⟩ := hmem
    have hq' := ((build_index_amended nodes_op).2 ntn itn otn hok i q).mp hq
    have hqp : q = p := List.inj_on_of_nodup_map hnames hq'.1 hp hs
    subst hqp
    unfold find_successors
    rw [hntn_p, foldSuccs_mem]
    right
    refine ⟨i, hq'.2, ?_⟩
    have hitn := (buildIndexGo_itn_mem nodes_op [] [] [] (ntn, itn, otn) hok i n).mpr
      (Or.inl ⟨hn, hi⟩)
    obtain ⟨L, hL, hnL⟩ := hitn
    exact ⟨L, hL, n, hnL, rfl⟩

/-- C4 witness: the duality applied to the concrete graph `exP ⟶ exN`. -/
theorem find_predecessors_successors_dual_witness :
    (exP.unique_name ∈ find_predecessors [("p", exP), ("n", exN)] [("x", exP), ("y", exN)]
        exN.unique_name ↔
      ∃ i ∈ exN.inputs, dictGet? [("x", exP), ("y", exN)] i = some exP) ∧
    (exP.unique_name ∈ find_predecessors [("p", exP), ("n", exN)] [("x", exP), ("y", exN)]
        exN.unique_name →
      exN.unique_name ∈ find_successors [("p", exP), ("n", exN)] [("x", [exN])]
        exP.unique_name) :=
  find_predecessors_successors_dual [exP, exN] [("p", exP), ("n", exN)] [("x", [exN])]
    [("x", exP), ("y", exN)] rfl (by decide) exP exN (by decide) (by decide)

/-! ## Claim C6: `_get_module_name` and `parse_traced_name` -/

theorem pySplitChar_ne_nil (sep : Char) (cs : List Char) : pySplitChar sep cs ≠ [] := by
  cases cs with
  | nil => simp [pySplitChar]
  | cons c rest =>
    simp only [pySplitChar]
    cases pySplitChar sep rest with
    | nil => simp
    | cons s r =>
      by_cases h : c = sep
      · simp [h]
      · simp [h]

theorem pySplitChar_no_sep (sep : Char) (cs : List Char) (h : sep ∉ cs) :
    pySplitChar sep cs = [cs] := by
  induction cs with
  | nil => rfl
  | cons c rest ih =>
    have hc : c ≠ sep := fun he => h (he ▸ List.mem_cons_self c rest)
    have hr : sep ∉ rest := fun hm => h (List.mem_cons_of_mem _ hm)
    simp only [pySplitChar, ih hr]
    rw [if_neg hc]

theorem pySplitChar_cons_eq (sep c : Char) (cs s : List Char) (r : List (List Char))
    (h : pySplitChar sep cs = s :: r) :
    pySplitChar sep (c :: cs) = if c = sep then [] :: s :: r else (c :: s) :: r := by
  simp only [pySplitChar, h]

theorem pySplitChar_dest (sep : Char) (cs : List Char) :
    ∃ s r, pySplitChar sep cs = s :: r := by
  cases hb : pySplitChar sep cs with
  | nil => exact absurd hb (pySplitChar_ne_nil sep cs)
  | cons s r => exact ⟨s, r, rfl⟩

theorem pySplitChar_append (sep : Char) (a b : List Char) :
    pySplitChar sep (a ++ sep :: b) = pySplitChar sep a ++ pySplitChar sep b := by
  induction a with
  | nil =>
    obtain ⟨s, r, hb⟩ := pySplitChar_dest sep b
    rw [List.nil_append, pySplitChar_cons_eq sep sep b s r hb, if_pos rfl, hb]
    rfl
  | cons c a' ih =>
    obtain ⟨s, r, ha⟩ := pySplitChar_dest sep a'
    have hab : pySplitChar sep (a' ++ sep :: b) = s :: (r ++ pySplitChar sep b) := by
      rw [ih, ha]
      rfl
    rw [List.cons_append, pySplitChar_cons_eq sep c _ _ _ hab,
      pySplitChar_cons_eq sep c a' s r ha]
    by_cases hc : c = sep
    · rw [if_pos hc, if_pos hc]
      simp
    · rw [if_neg hc, if_neg hc]
      simp

theorem getLastD_irrel {α : Type} (l : List α) (d₁ d₂ : α) (h : l ≠ []) :
    l.getLastD d₁ = l.getLastD d₂ := by
  obtain ⟨y, hy⟩ := Option.isSome_iff_exists.mp (List.getLast?_isSome.mpr h)
  rw [List.getLastD_eq_getLast?, List.getLastD_eq_getLast?, hy]
  rfl

theorem pyLast_append (l₁ l₂ : List (List Char)) (h : l₂ ≠ []) :
    pyLast (l₁ ++ l₂) = pyLast l₂ := by
  induction l₁ with
  | nil => rfl
  | cons x rest ih =>
    have hne : rest ++ l₂ ≠ [] := by
      cases l₂ with
      | nil => exact absurd rfl h
      | cons y t => simp
    unfold pyLast
    rw [List.cons_append, List.getLastD_cons, getLastD_irrel _ _ [] hne]
    exact ih

/-- C6: scope-name parsing branches on the framework version string
(`>=` is Python's lexicographic string comparison, `lexLe`):
* for version ≥ `'1.4.0'`, `_get_module_name` returns the last
  `'/'`-separated segment of the scope name with every occurrence of
  `'__module.'` removed (stated both for a scope name containing `'/'`,
  through its last-slash decomposition, and for one with no `'/'` at all);
* for older versions it returns the `'.'`-join of all bracketed segments;
* `parse_traced_name` strips a leading `'TracedModule['` together with a
  trailing `']'` exactly when both are present, and returns the name
  unchanged otherwise. -/
theorem get_module_name_and_traced_name_spec :
    (∀ ver scope : String, ∀ a b : List Char, lexLe "1.4.0".data ver.data = true →
      scope.data = a ++ '/' :: b → '/' ∉ b →
      _get_module_name ver scope = String.mk (pyRemoveAll "__module.".data b)) ∧
    (∀ ver scope : String, lexLe "1.4.0".data ver.data = true → '/' ∉ scope.data →
      _get_module_name ver scope = String.mk (pyRemoveAll "__module.".data scope.data)) ∧
    (∀ ver scope : String, lexLe "1.4.0".data ver.data = false →
      _get_module_name ver scope = String.mk (pyJoinChar '.' (bracketSegs scope.data))) ∧
    (∀ m : List Char,
      parse_traced_name (String.mk ("TracedModule[".data ++ m ++ [']'])) = String.mk m) ∧
    (∀ name : String, ¬ (pyStartsWith name.data "TracedModule[".data = true ∧
        pyEndsWith name.data "]".data = true) →
      parse_traced_name name = name) := by
  refine ⟨?_, ?_, ?_, ?_, ?_⟩
  · intro ver scope a b hver hdec hsl
    unfold _get_module_name
    rw [if_pos hver, hdec, pySplitChar_append, pyLast_append _ _ (pySplitChar_ne_nil '/' b),
      pySplitChar_no_sep '/' b hsl]
    rfl
  · intro ver scope hver hsl
    unfold _get_module_name
    rw [if_pos hver, pySplitChar_no_sep '/' scope.data hsl]
    rfl
  · intro ver scope hver
    unfold _get_module_name
    rw [hver]
    simp
  · intro m
    unfold parse_traced_name
    have hs : pyStartsWith ("TracedModule[".data ++ m ++ [']']) "TracedModule[".data = true := by
      unfold pyStartsWith
      rw [List.append_assoc]
      exact List.isPrefixOf_iff_prefix.mpr (List.prefix_append _ _)
    have he : pyEndsWith ("TracedModule[".data ++ m ++ [']']) "]".data = true := by
      unfold pyEndsWith
      exact List.isSuffixOf_iff_suffix.mpr (List.suffix_append _ _)
    simp only [String.data]
    rw [hs, he]
    simp only [Bool.and_self, if_pos rfl]
    rw [List.append_assoc, List.drop_left, List.rdrop]
    have hlen : (m ++ [']']).length - "]".data.length = m.length := by simp
    rw [hlen, List.take_left]
    simp
  · intro name hcond
    have hb : (pyStartsWith name.data "TracedModule[".data &&
        pyEndsWith name.data "]".data) = false := by
      cases hA : pyStartsWith name.data "TracedModule[".data with
      | false => rfl
      | true =>
        cases hB : pyEndsWith name.data "]".data with
        | false => rw [Bool.and_false]
        | true => exact absurd ⟨hA, hB⟩ hcond
    simp only [parse_traced_name, hb]
    simp

/-- C6 witness: both version branches of `_get_module_name` (a PyTorch-1.4
style scope name with and without `'/'`, and a PyTorch-1.3 bracketed scope
name) and both cases of `parse_traced_name`, at concrete inputs. -/
theorem get_module_name_and_traced_name_spec_witness :
    _get_module_name "1.5.0" "__module.backbone/__module.backbone.conv2"
      = String.mk (pyRemoveAll "__module.".data "__module.backbone.conv2".data) ∧
    _get_module_name "1.4.0" "__module.conv1"
      = String.mk (pyRemoveAll "__module.".data "__module.conv1".data) ∧
    _get_module_name "1.3.1" "MyModel/BackboneModel[backbone]/Conv2d[conv2]"
      = String.mk (pyJoinChar '.'
          (bracketSegs "MyModel/BackboneModel[backbone]/Conv2d[conv2]".data)) ∧
    parse_traced_name (String.mk ("TracedModule[".data ++ "Foo".data ++ [']']))
      = String.mk "Foo".data ∧
    parse_traced_name "Conv2d" = "Conv2d" :=
  ⟨get_module_name_and_traced_name_spec.1 "1.5.0" "__module.backbone/__module.backbone.conv2"
      "__module.backbone".data "__module.backbone.conv2".data (by decide) (by decide)
      (by decide),
   get_module_name_and_traced_name_spec.2.1 "1.4.0" "__module.conv1" (by decide) (by decide),
   get_module_name_and_traced_name_spec.2.2.1 "1.3.1"
      "MyModel/BackboneModel[backbone]/Conv2d[conv2]" (by decide),
   get_module_name_and_traced_name_spec.2.2.2.1 "Foo".data,
   get_module_name_and_traced_name_spec.2.2.2.2 "Conv2d" (by decide)⟩

/-! ## Claim C7: `parse_mnasnet_block` / `mnasnet_any` -/

theorem intDictGet?_ID_TO_OP (t : Int) : intDictGet? ID_TO_OP t = opSpec t := by
  by_cases h0 : (0 : Int) = t
  · subst h0; rfl
  · by_cases h1 : (1 : Int) = t
    · subst h1; rfl
    · by_cases h2 : (2 : Int) = t
      · subst h2; rfl
      · show intDictGet? [((0 : Int), "conv"), (1, "mconv"), (2, "dconv")] t = opSpec t
        simp only [intDictGet?, opSpec, if_neg h0, if_neg h1, if_neg h2,
          if_neg (fun h : t = 0 => h0 h.symm), if_neg (fun h : t = 1 => h1 h.symm),
          if_neg (fun h : t = 2 => h2 h.symm)]

theorem intDictGet?_ID_TO_FILTERS (t : Int) : intDictGet? ID_TO_FILTERS t = filtersSpec t := by
  by_cases h0 : (0 : Int) = t
  · subst h0; rfl
  · by_cases h1 : (1 : Int) = t
    · subst h1; rfl
    · by_cases h2 : (2 : Int) = t
      · subst h2; rfl
      · show intDictGet? [((0 : Int), (3 : Rat)/4), (1, 1), (2, 5/4)] t = filtersSpec t
        simp only [intDictGet?, filtersSpec, if_neg h0, if_neg h1, if_neg h2,
          if_neg (fun h : t = 0 => h0 h.symm), if_neg (fun h : t = 1 => h1 h.symm),
          if_neg (fun h : t = 2 => h2 h.symm)]

theorem intDictGet?_ID_TO_KERNEL (t : Int) : intDictGet? ID_TO_KERNEL t = kernelSpec t := by
  by_cases h0 : (0 : Int) = t
  · subst h0; rfl
  · by_cases h1 : (1 : Int) = t
    · subst h1; rfl
    · show intDictGet? [((0 : Int), (3 : Nat)), (1, 5)] t = kernelSpec t
      simp only [intDictGet?, kernelSpec, if_neg h0, if_neg h1,
        if_neg (fun h : t = 0 => h0 h.symm), if_neg (fun h : t = 1 => h1 h.symm)]

theorem intDictGet?_ID_TO_SKIPS (t : Int) : intDictGet? ID_TO_SKIPS t = skipsSpec t := by
  by_cases h0 : (0 : Int) = t
  · subst h0; rfl
  · by_cases h1 : (1 : Int) = t
    · subst h1; rfl
    · show intDictGet? [((0 : Int), false), (1, true)] t = skipsSpec t
      simp only [intDictGet?, skipsSpec, if_neg h0, if_neg h1,
        if_neg (fun h : t = 0 => h0 h.symm), if_neg (fun h : t = 1 => h1 h.symm)]

theorem intDictGet?_ID_TO_LAYERS (i : Nat) (t : Int) :
    intDictGet? (ID_TO_LAYERS i) t = layersSpec i t := by
  by_cases hc : 1 < _MOBILENET_V2_NUM_LAYERS.getD i 0
  · have hc' : 1 < _MOBILENET_V2_NUM_LAYERS[i]?.getD 0 := by simpa [List.getD] using hc
    have hl : ID_TO_LAYERS i = [(0, 0), (1, 1), (2, -1)] := by
      simp [ID_TO_LAYERS, List.enum, hc']
    rw [hl]
    by_cases h0 : (0 : Int) = t
    · subst h0; rfl
    · by_cases h1 : (1 : Int) = t
      · subst h1; rfl
      · by_cases h2 : (2 : Int) = t
        · subst h2
          simp only [intDictGet?, layersSpec, if_neg h0, if_neg h1, if_pos rfl,
            if_neg (fun h : (2 : Int) = 0 => by cases h),
            if_neg (fun h : (2 : Int) = 1 => by cases h), if_pos hc]
        · simp only [intDictGet?, layersSpec, if_neg h0, if_neg h1, if_neg h2,
            if_neg (fun h : t = 0 => h0 h.symm), if_neg (fun h : t = 1 => h1 h.symm),
            if_neg (fun h : t = 2 => h2 h.symm)]
  · have hc' : ¬ 1 < _MOBILENET_V2_NUM_LAYERS[i]?.getD 0 := by simpa [List.getD] using hc
    have hl : ID_TO_LAYERS i = [(0, 0), (1, 1), (2, 0)] := by
      simp [ID_TO_LAYERS, List.enum, hc']
    rw [hl]
    by_cases h0 : (0 : Int) = t
    · subst h0; rfl
    · by_cases h1 : (1 : Int) = t
      · subst h1; rfl
      · by_cases h2 : (2 : Int) = t
        · subst h2
          simp only [intDictGet?, layersSpec, if_neg h0, if_neg h1, if_pos rfl,
            if_neg (fun h : (2 : Int) = 0 => by cases h),
            if_neg (fun h : (2 : Int) = 1 => by cases h), if_neg hc]
        · simp only [intDictGet?, layersSpec, if_neg h0, if_neg h1, if_neg h2,
            if_neg (fun h : t = 0 => h0 h.symm), if_neg (fun h : t = 1 => h1 h.symm),
            if_neg (fun h : t = 2 => h2 h.symm)]

theorem parseStagesGo_structure (tokens : List (List Char)) (is : List Nat)
    (bd bd' : BlockDef) (h : parseStagesGo tokens is bd = some bd') :
    ∃ rs : List (String × Int × Rat × Nat × Bool),
      rs.length = is.length ∧
      (∀ j i, is.get? j = some i → ∃ r, rs.get? j = some r ∧ parseStage tokens i = some r) ∧
      bd'.convop = bd.convop ++ rs.map (fun r => r.1) ∧
      bd'.num_layers = bd.num_layers ++ rs.map (fun r => r.2.1) ∧
      bd'.filters = bd.filters ++ rs.map (fun r => r.2.2.1) ∧
      bd'.kernel_size = bd.kernel_size ++ rs.map (fun r => r.2.2.2.1) ∧
      bd'.skips = bd.skips ++ rs.map (fun r => r.2.2.2.2) := by
  induction is generalizing bd with
  | nil =>
    simp only [parseStagesGo] at h
    have h' := Option.some.inj h
    subst h'
    exact ⟨[], rfl, fun j i hj => by simp at hj, by simp, by simp, by simp, by simp, by simp⟩
  | cons i0 rest ih =>
    simp only [parseStagesGo] at h
    cases hs : parseStage tokens i0 with
    | none =>
      rw [hs] at h
      exact Option.noConfusion h
    | some r =>
      rw [hs] at h
      obtain ⟨op0, nl0, fl0, ks0, sk0⟩ := r
      obtain ⟨rs, hlen, hidx, h1, h2, h3, h4, h5⟩ := ih _ h
      refine ⟨(op0, nl0, fl0, ks0, sk0) :: rs, by simp [hlen], ?_, ?_, ?_, ?_, ?_, ?_⟩
      · intro j i hj
        cases j with
        | zero =>
          rw [List.get?_cons_zero] at hj
          have hi := Option.some.inj hj
          subst hi
          exact ⟨(op0, nl0, fl0, ks0, sk0), rfl, hs⟩
        | succ j' =>
          rw [List.get?_cons_succ] at hj ⊢
          exact hidx j' i hj
      · rw [h1]; simp
      · rw [h2]; simp
      · rw [h3]; simp
      · rw [h4]; simp
      · rw [h5]; simp

theorem parseStage_some (tokens : List (List Char)) (i : Nat) (op : String) (nl : Int)
    (fl : Rat) (ks : Nat) (sk : Bool)
    (h : parseStage tokens i = some (op, nl, fl, ks, sk)) :
    ∃ t0 t1 t2 t3 t4 : Int,
      (((tokens.get? (i*5)).bind pyInt? = some t0 ∧ intDictGet? ID_TO_OP t0 = some op) ∧
       ((tokens.get? (i*5+1)).bind pyInt? = some t1 ∧
         intDictGet? (ID_TO_LAYERS i) t1 = some nl) ∧
       ((tokens.get? (i*5+2)).bind pyInt? = some t2 ∧
         intDictGet? ID_TO_FILTERS t2 = some fl) ∧
       ((tokens.get? (i*5+3)).bind pyInt? = some t3 ∧
         intDictGet? ID_TO_KERNEL t3 = some ks) ∧
       ((tokens.get? (i*5+4)).bind pyInt? = some t4 ∧
         intDictGet? ID_TO_SKIPS t4 = some sk)) := by
  unfold parseStage at h
  cases e0 : (tokens.get? (i*5)).bind pyInt? with
  | none => rw [e0] at h; exact Option.noConfusion h
  | some t0 =>
  rw [e0] at h
  simp only [Option.bind_eq_bind, Option.some_bind] at h
  cases f0 : intDictGet? ID_TO_OP t0 with
  | none => rw [f0] at h; exact Option.noConfusion h
  | some op' =>
  rw [f0] at h
  simp only [Option.some_bind] at h
  cases e1 : (tokens.get? (i*5+1)).bind pyInt? with
  | none => rw [e1] at h; exact Option.noConfusion h
  | some t1 =>
  rw [e1] at h
  simp only [Option.some_bind] at h
  cases f1 : intDictGet? (ID_TO_LAYERS i) t1 with
  | none => rw [f1] at h; exact Option.noConfusion h
  | some nl' =>
  rw [f1] at h
  simp only [Option.some_bind] at h
  cases e2 : (tokens.get? (i*5+2)).bind pyInt? with
  | none => rw [e2] at h; exact Option.noConfusion h
  | some t2 =>
  rw [e2] at h
  simp only [Option.some_bind] at h
  cases f2 : intDictGet? ID_TO_FILTERS t2 with
  | none => rw [f2] at h; exact Option.noConfusion h
  | some fl' =>
  rw [f2] at h
  simp only [Option.some_bind] at h
  cases e3 : (tokens.get? (i*5+3)).bind pyInt? with
  | none => rw [e3] at h; exact Option.noConfusion h
  | some t3 =>
  rw [e3] at h
  simp only [Option.some_bind] at h
  cases f3 : intDictGet? ID_TO_KERNEL t3 with
  | none => rw [f3] at h; exact Option.noConfusion h
  | some ks' =>
  rw [f3] at h
  simp only [Option.some_bind] at h
  cases e4 : (tokens.get? (i*5+4)).bind pyInt? with
  | none => rw [e4] at h; exact Option.noConfusion h
  | some t4 =>
  rw [e4] at h
  simp only [Option.some_bind] at h
  cases f4 : intDictGet? ID_TO_SKIPS t4 with
  | none => rw [f4] at h; exact Option.noConfusion h
  | some sk' =>
  rw [f4] at h
  simp only [Option.some_bind] at h
  have hinj := Option.some.inj h
  obtain ⟨hop, hnl, hfl, hks, hsk⟩ : op' = op ∧ nl' = nl ∧ fl' = fl ∧ ks' = ks ∧ sk' = sk := by
    have h1 := congrArg Prod.fst hinj
    have h2 := congrArg (fun p => p.2.1) hinj
    have h3 := congrArg (fun p => p.2.2.1) hinj
    have h4 := congrArg (fun p => p.2.2.2.1) hinj
    have h5 := congrArg (fun p => p.2.2.2.2) hinj
    exact ⟨h1, h2, h3, h4, h5⟩
  subst hop; subst hnl; subst hfl; subst hks; subst hsk
  exact ⟨t0, t1, t2, t3, t4, ⟨rfl, f0⟩, ⟨rfl, f1⟩, ⟨rfl, f2⟩, ⟨rfl, f3⟩, ⟨rfl, f4⟩⟩

/-- C7: a successful `parse_mnasnet_block` requires the rstripped,
bracket-stripped line to split into exactly `7*5` space-separated integer
tokens; each of the 7 stages' five fields is decoded from its five tokens
through the fixed tables (op ∈ {conv, mconv, dconv}; filter multiplier ∈
{0.75, 1.0, 1.25}; kernel ∈ {3, 5}; skip ∈ {False, True}; layer delta from
{0, 1, -1} for stages whose base layer count exceeds 1 and {0, 1, 0}
otherwise); and `mnasnet_any` builds a model whose per-stage filter count is
`int(base_filter * multiplier)` and per-stage layer count is
`base_count + delta`. -/
theorem parse_mnasnet_block_and_mnasnet_any_spec :
    (∀ line b, parse_mnasnet_block line = some b → (pyTokens line).length = 7 * 5) ∧
    (∀ line b, parse_mnasnet_block line = some b → ∀ i, i < 7 →
      ∃ t0 t1 t2 t3 t4 : Int,
        ((pyTokens line).get? (i*5)).bind pyInt? = some t0 ∧
        ((pyTokens line).get? (i*5+1)).bind pyInt? = some t1 ∧
        ((pyTokens line).get? (i*5+2)).bind pyInt? = some t2 ∧
        ((pyTokens line).get? (i*5+3)).bind pyInt? = some t3 ∧
        ((pyTokens line).get? (i*5+4)).bind pyInt? = some t4 ∧
        b.convop.get? i = opSpec t0 ∧
        b.num_layers.get? i = layersSpec i t1 ∧
        b.filters.get? i = filtersSpec t2 ∧
        b.kernel_size.get? i = kernelSpec t3 ∧
        b.skips.get? i = skipsSpec t4) ∧
    (∀ convops fm ks nld sk args, mnasnet_any convops fm ks nld sk = some args →
      args.alpha = 1 ∧ args.convops = convops ∧ args.kernel_sizes = ks ∧ args.skips = sk ∧
      (∀ i, i < 7 → ∃ base mlt, _MOBILENET_V2_FILTERS.get? i = some base ∧
        fm.get? i = some mlt ∧ args.depths.get? i = some (pyIntOfRat ((base : Rat) * mlt))) ∧
      (∀ i, i < 7 → ∃ cnt d, _MOBILENET_V2_NUM_LAYERS.get? i = some cnt ∧
        nld.get? i = some d ∧ args.num_layers.get? i = some ((cnt : Int) + d))) := by
  refine ⟨?_, ?_, ?_⟩
  · intro line b h
    unfold parse_mnasnet_block at h
    by_cases hlen : (pyTokens line).length = 7 * 5
    · exact hlen
    · rw [if_neg hlen] at h
      exact Option.noConfusion h
  · intro line b h i hi
    unfold parse_mnasnet_block at h
    by_cases hlen : (pyTokens line).length = 7 * 5
    · rw [if_pos hlen] at h
      obtain ⟨rs, hlenrs, hidx, h1, h2, h3, h4, h5⟩ := parseStagesGo_structure _ _ _ _ h
      obtain ⟨r, hrs, hstage⟩ := hidx i i (List.get?_range hi)
      obtain ⟨op, nl, fl, ks, sk⟩ := r
      obtain ⟨t0, t1, t2, t3, t4, ⟨e0, f0⟩, ⟨e1, f1⟩, ⟨e2, f2⟩, ⟨e3, f3⟩, ⟨e4, f4⟩⟩ :=
        parseStage_some _ _ _ _ _ _ _ hstage
      refine ⟨t0, t1, t2, t3, t4, e0, e1, e2, e3, e4, ?_, ?_, ?_, ?_, ?_⟩
      · rw [h1, ← intDictGet?_ID_TO_OP]
        simp only [List.nil_append, List.get?_map, hrs, Option.map_some']
        exact f0.symm
      · rw [h2, ← intDictGet?_ID_TO_LAYERS]
        simp only [List.nil_append, List.get?_map, hrs, Option.map_some']
        exact f1.symm
      · rw [h3, ← intDictGet?_ID_TO_FILTERS]
        simp only [List.nil_append, List.get?_map, hrs, Option.map_some']
        exact f2.symm
      · rw [h4, ← intDictGet?_ID_TO_KERNEL]
        simp only [List.nil_append, List.get?_map, hrs, Option.map_some']
        exact f3.symm
      · rw [h5, ← intDictGet?_ID_TO_SKIPS]
        simp only [List.nil_append, List.get?_map, hrs, Option.map_some']
        exact f4.symm
    · rw [if_neg hlen] at h
      exact Option.noConfusion h
  · intro cv fm ks nld sk args h
    unfold mnasnet_any at h
    by_cases hc : (List.zipWith (fun (a : Nat) (b : Rat) => pyIntOfRat ((a : Rat) * b))
          _MOBILENET_V2_FILTERS fm).length = 7 ∧ cv.length = 7 ∧ ks.length = 7 ∧
        (List.zipWith (fun (a : Nat) (b : Int) => (a : Int) + b)
          _MOBILENET_V2_NUM_LAYERS nld).length = 7 ∧
        sk.length = 7
    · rw [if_pos hc] at h
      have hargs := (Option.some.inj h).symm
      subst hargs
      have hfm : 7 ≤ fm.length := by
        have h1 := hc.1
        rw [List.length_zipWith] at h1
        have h2 : _MOBILENET_V2_FILTERS.length = 7 := rfl
        omega
      have hnld : 7 ≤ nld.length := by
        have h1 := hc.2.2.2.1
        rw [List.length_zipWith] at h1
        have h2 : _MOBILENET_V2_NUM_LAYERS.length = 7 := rfl
        omega
      refine ⟨rfl, rfl, rfl, rfl, ?_, ?_⟩
      · intro i hi
        have hib : i < _MOBILENET_V2_FILTERS.length := by
          have h2 : _MOBILENET_V2_FILTERS.length = 7 := rfl
          omega
        have him : i < fm.length := by omega
        refine ⟨_MOBILENET_V2_FILTERS.get ⟨i, hib⟩, fm.get ⟨i, him⟩,
          List.get?_eq_get hib, List.get?_eq_get him, ?_⟩
        show (List.zipWith (fun (a : Nat) (b : Rat) => pyIntOfRat ((a : Rat) * b))
          _MOBILENET_V2_FILTERS fm).get? i = _
        rw [List.get?_zipWith, List.get?_eq_get hib, List.get?_eq_get him]
      · intro i hi
        have hib : i < _MOBILENET_V2_NUM_LAYERS.length := by
          have h2 : _MOBILENET_V2_NUM_LAYERS.length = 7 := rfl
          omega
        have him : i < nld.length := by omega
        refine ⟨_MOBILENET_V2_NUM_LAYERS.get ⟨i, hib⟩, nld.get ⟨i, him⟩,
          List.get?_eq_get hib, List.get?_eq_get him, ?_⟩
        show (List.zipWith (fun (a : Nat) (b : Int) => (a : Int) + b)
          _MOBILENET_V2_NUM_LAYERS nld).get? i = _
        rw [List.get?_zipWith, List.get?_eq_get hib, List.get?_eq_get him]
    · rw [if_neg hc] at h
      exact Option.noConfusion h

/-- C7 witness: the three parts applied to the 35-zero block line (decoding
to 7 stages of `conv`, delta 0, multiplier 0.75, kernel 3, no skip) and to
the corresponding `mnasnet_any` call, at stage 0. -/
theorem parse_mnasnet_block_and_mnasnet_any_spec_witness :
    (pyTokens "[0 0 0 0 0 0 0 0 0 0 0 0 0 0 0 0 0 0 0 0 0 0 0 0 0 0 0 0 0 0 0 0 0 0 0]").length
      = 7 * 5 ∧
    (∃ t0 t1 t2 t3 t4 : Int,
      ((pyTokens "[0 0 0 0 0 0 0 0 0 0 0 0 0 0 0 0 0 0 0 0 0 0 0 0 0 0 0 0 0 0 0 0 0 0 0]").get?
        (0*5)).bind pyInt? = some t0 ∧
      ((pyTokens "[0 0 0 0 0 0 0 0 0 0 0 0 0 0 0 0 0 0 0 0 0 0 0 0 0 0 0 0 0 0 0 0 0 0 0]").get?
        (0*5+1)).bind pyInt? = some t1 ∧
      ((pyTokens "[0 0 0 0 0 0 0 0 0 0 0 0 0 0 0 0 0 0 0 0 0 0 0 0 0 0 0 0 0 0 0 0 0 0 0]").get?
        (0*5+2)).bind pyInt? = some t2 ∧
      ((pyTokens "[0 0 0 0 0 0 0 0 0 0 0 0 0 0 0 0 0 0 0 0 0 0 0 0 0 0 0 0 0 0 0 0 0 0 0]").get?
        (0*5+3)).bind pyInt? = some t3 ∧
      ((pyTokens "[0 0 0 0 0 0 0 0 0 0 0 0 0 0 0 0 0 0 0 0 0 0 0 0 0 0 0 0 0 0 0 0 0 0 0]").get?
        (0*5+4)).bind pyInt? = some t4 ∧
      (List.replicate 7 "conv").get? 0 = opSpec t0 ∧
      (List.replicate 7 (0 : Int)).get? 0 = layersSpec 0 t1 ∧
      (List.replicate 7 ((3 : Rat)/4)).get? 0 = filtersSpec t2 ∧
      (List.replicate 7 (3 : Nat)).get? 0 = kernelSpec t3 ∧
      (List.replicate 7 false).get? 0 = skipsSpec t4) ∧
    (∃ base mlt, _MOBILENET_V2_FILTERS.get? 0 = some base ∧
      (List.replicate 7 ((3 : Rat)/4)).get? 0 = some mlt ∧
      (MNASNetArgs.mk 1
        (List.zipWith (fun (a : Nat) (b : Rat) => pyIntOfRat ((a : Rat) * b))
          _MOBILENET_V2_FILTERS (List.replicate 7 ((3 : Rat)/4)))
        (List.replicate 7 "conv") (List.replicate 7 3)
        (List.zipWith (fun (a : Nat) (b : Int) => (a : Int) + b) _MOBILENET_V2_NUM_LAYERS
          (List.replicate 7 0))
        (List.replicate 7 false)).depths.get? 0
        = some (pyIntOfRat ((base : Rat) * mlt))) := by
  refine ⟨?_, ?_, ?_⟩
  · exact parse_mnasnet_block_and_mnasnet_any_spec.1
      "[0 0 0 0 0 0 0 0 0 0 0 0 0 0 0 0 0 0 0 0 0 0 0 0 0 0 0 0 0 0 0 0 0 0 0]"
      ⟨List.replicate 7 "conv", List.replicate 7 0, List.replicate 7 ((3 : Rat)/4),
        List.replicate 7 3, List.replicate 7 false⟩ rfl
  · exact parse_mnasnet_block_and_mnasnet_any_spec.2.1
      "[0 0 0 0 0 0 0 0 0 0 0 0 0 0 0 0 0 0 0 0 0 0 0 0 0 0 0 0 0 0 0 0 0 0 0]"
      ⟨List.replicate 7 "conv", List.replicate 7 0, List.replicate 7 ((3 : Rat)/4),
        List.replicate 7 3, List.replicate 7 false⟩ rfl 0 (by norm_num)
  · exact ((parse_mnasnet_block_and_mnasnet_any_spec.2.2 (List.replicate 7 "conv")
      (List.replicate 7 ((3 : Rat)/4)) (List.replicate 7 3) (List.replicate 7 0)
      (List.replicate 7 false) _ rfl).2.2.2.2.1) 0 (by norm_num)

/-! ## Claim C5: `_expand_non_prim_node` -/

theorem npInputStep_group (output_to_node : String → Option TraceNode)
    (nodes : List TraceNode) (st : NPState) (name : String) (x : TraceNode)
    (hx : x ∈ (npInputStep output_to_node nodes st name).node_group) :
    x ∈ st.node_group ∨ pyStartsWith x.kind.data "prim::".data = true := by
  unfold npInputStep at hx
  cases hp : output_to_node name with
  | none =>
    simp only [hp] at hx
    exact Or.inl hx
  | some predecessor_node =>
    simp only [hp] at hx
    by_cases hn : predecessor_node ∈ nodes
    · simp only [if_pos hn] at hx
      by_cases hprim : pyStartsWith predecessor_node.kind.data "prim::".data = true
      · simp only [if_pos hprim, List.mem_append] at hx
        rcases hx with h1 | h1
        · exact Or.inl h1
        · exact Or.inr (by rw [List.mem_singleton.mp h1]; exact hprim)
      · simp only [if_neg hprim] at hx
        exact Or.inl hx
    · simp only [if_neg hn] at hx
      exact Or.inl hx

theorem npFold_group (output_to_node : String → Option TraceNode)
    (nodes : List TraceNode) (names : List String) (st : NPState) (x : TraceNode)
    (hx : x ∈ (names.foldl (npInputStep output_to_node nodes) st).node_group) :
    x ∈ st.node_group ∨ pyStartsWith x.kind.data "prim::".data = true := by
  induction names generalizing st with
  | nil => exact Or.inl hx
  | cons n rest ih =>
    rw [List.foldl_cons] at hx
    rcases ih _ hx with h1 | h1
    · exact npInputStep_group output_to_node nodes st n x h1
    · exact Or.inr h1

theorem npLoop_group (output_to_node : String → Option TraceNode)
    (nodes : List TraceNode) (fuel : Nat) (st : NPState) (x : TraceNode)
    (hx : x ∈ (npLoop output_to_node nodes fuel st).node_group) :
    x ∈ st.node_group ∨ pyStartsWith x.kind.data "prim::".data = true := by
  induction fuel generalizing st with
  | zero => exact Or.inl hx
  | succ fuel ih =>
    unfold npLoop at hx
    cases hq : st.queue with
    | nil =>
      rw [hq] at hx
      exact Or.inl hx
    | cons curr rest =>
      rw [hq] at hx
      rcases ih _ hx with h1 | h1
      · exact npFold_group output_to_node nodes curr.inputs { st with queue := rest } x h1
      · exact Or.inr h1

/-- C5: for a non-prim seed node, every trace node of the group built by
`_expand_non_prim_node` other than the seed has a kind starting with
`prim::` (only prim predecessors are ever merged), and the group's `outputs`
list is exactly the debug names of the seed node's own outputs.  Stated for
every fuel bound of the merging loop, hence for the fuel that exhausts the
queue on any run on which the Python loop terminates. -/
theorem expand_non_prim_node_spec (output_to_node : String → Option TraceNode)
    (nodes : List TraceNode) (node : TraceNode) (torch_version : String)
    (global_count : Nat) (module_type : String) (fuel : Nat)
    (hseed : pyStartsWith node.kind.data "prim::".data = false) :
    (∀ x ∈ (_expand_non_prim_node output_to_node nodes node torch_version global_count
        module_type fuel).node_cpps,
      x ≠ node → pyStartsWith x.kind.data "prim::".data = true) ∧
    (_expand_non_prim_node output_to_node nodes node torch_version global_count
        module_type fuel).outputs = node.outputs := by
  constructor
  · intro x hx hne
    have hg : x ∈ (npLoop output_to_node nodes fuel ⟨[node], [node], []⟩).node_group := hx
    rcases npLoop_group output_to_node nodes fuel _ x hg with h1 | h1
    · exact absurd (List.mem_singleton.mp h1) hne
    · exact h1
  · rfl

/-- C5 witness: an `aten::flatten` seed whose input is produced by a
`prim::ListConstruct` node in the same scope. -/
theorem expand_non_prim_node_spec_witness :
    (∀ x ∈ (_expand_non_prim_node
        (fun s => if s = "a" then some ⟨2, "prim::ListConstruct", "__module.m", [], ["a"]⟩
                  else none)
        [⟨1, "aten::flatten", "__module.m", ["a"], ["b"]⟩,
         ⟨2, "prim::ListConstruct", "__module.m", [], ["a"]⟩]
        ⟨1, "aten::flatten", "__module.m", ["a"], ["b"]⟩ "1.4.0" 0 "func" 5).node_cpps,
      x ≠ ⟨1, "aten::flatten", "__module.m", ["a"], ["b"]⟩ →
        pyStartsWith x.kind.data "prim::".data = true) ∧
    (_expand_non_prim_node
        (fun s => if s = "a" then some ⟨2, "prim::ListConstruct", "__module.m", [], ["a"]⟩
                  else none)
        [⟨1, "aten::flatten", "__module.m", ["a"], ["b"]⟩,
         ⟨2, "prim::ListConstruct", "__module.m", [], ["a"]⟩]
        ⟨1, "aten::flatten", "__module.m", ["a"], ["b"]⟩ "1.4.0" 0 "func" 5).outputs
      = (⟨1, "aten::flatten", "__module.m", ["a"], ["b"]⟩ : TraceNode).outputs :=
  expand_non_prim_node_spec
    (fun s => if s = "a" then some ⟨2, "prim::ListConstruct", "__module.m", [], ["a"]⟩
              else none)
    [⟨1, "aten::flatten", "__module.m", ["a"], ["b"]⟩,
     ⟨2, "prim::ListConstruct", "__module.m", [], ["a"]⟩]
    ⟨1, "aten::flatten", "__module.m", ["a"], ["b"]⟩ "1.4.0" 0 "func" 5 (by decide)

/-! ## Claim C2: `_expand_module_node` -/

theorem foldExpand_inputs (output_to_node : String → Option TraceNode)
    (nodes : List TraceNode) (names : List String) (q v : List TraceNode)
    (ins outs : List String) :
    names.foldl (expandInputStep output_to_node nodes) ⟨q, v, ins, outs⟩ =
      ⟨q ++ (expandAdds output_to_node nodes v names).1,
       v ++ (expandAdds output_to_node nodes v names).1,
       ins ++ (expandAdds output_to_node nodes v names).2, outs⟩ := by
  induction names generalizing q v ins with
  | nil => simp [expandAdds]
  | cons name rest ih =>
    rw [List.foldl_cons]
    cases hp : output_to_node name with
    | none =>
      have hstep : expandInputStep output_to_node nodes ⟨q, v, ins, outs⟩ name =
          ⟨q, v, ins ++ [name], outs⟩ := by
        unfold expandInputStep
        simp only [hp]
      rw [hstep, ih]
      simp only [expandAdds, hp, List.append_assoc, List.singleton_append]
    | some p =>
      by_cases hn : p ∈ nodes
      · by_cases hv : p ∈ v
        · have hstep : expandInputStep output_to_node nodes ⟨q, v, ins, outs⟩ name =
              ⟨q, v, ins, outs⟩ := by
            unfold expandInputStep
            simp only [hp, if_pos hn, if_pos hv]
          rw [hstep, ih]
          simp only [expandAdds, hp, if_pos hn, if_pos hv]
        · have hstep : expandInputStep output_to_node nodes ⟨q, v, ins, outs⟩ name =
              ⟨q ++ [p], v ++ [p], ins, outs⟩ := by
            unfold expandInputStep
            simp only [hp, if_pos hn, if_neg hv]
          rw [hstep, ih]
          simp only [expandAdds, hp, if_pos hn, if_neg hv, List.append_assoc, List.singleton_append]
      · have hstep : expandInputStep output_to_node nodes ⟨q, v, ins, outs⟩ name =
            ⟨q, v, ins ++ [name], outs⟩ := by
          unfold expandInputStep
          simp only [hp, if_neg hn]
        rw [hstep, ih]
        simp only [expandAdds, hp, if_neg hn, List.append_assoc, List.singleton_append]

theorem foldExpand_outputs (input_to_node : String → Option TraceNode)
    (nodes : List TraceNode) (names : List String) (q v : List TraceNode)
    (ins outs : List String) :
    names.foldl (expandOutputStep input_to_node nodes) ⟨q, v, ins, outs⟩ =
      ⟨q ++ (expandAdds input_to_node nodes v names).1,
       v ++ (expandAdds input_to_node nodes v names).1,
       ins, outs ++ (expandAdds input_to_node nodes v names).2⟩ := by
  induction names generalizing q v outs with
  | nil => simp [expandAdds]
  | cons name rest ih =>
    rw [List.foldl_cons]
    cases hp : input_to_node name with
    | none =>
      have hstep : expandOutputStep input_to_node nodes ⟨q, v, ins, outs⟩ name =
          ⟨q, v, ins, outs ++ [name]⟩ := by
        unfold expandOutputStep
        simp only [hp]
      rw [hstep, ih]
      simp only [expandAdds, hp, List.append_assoc, List.singleton_append]
    | some p =>
      by_cases hn : p ∈ nodes
      · by_cases hv : p ∈ v
        · have hstep : expandOutputStep input_to_node nodes ⟨q, v, ins, outs⟩ name =
              ⟨q, v, ins, outs⟩ := by
            unfold expandOutputStep
            simp only [hp, if_pos hn, if_pos hv]
          rw [hstep, ih]
          simp only [expandAdds, hp, if_pos hn, if_pos hv]
        · have hstep : expandOutputStep input_to_node nodes ⟨q, v, ins, outs⟩ name =
              ⟨q ++ [p], v ++ [p], ins, outs⟩ := by
            unfold expandOutputStep
            simp only [hp, if_pos hn, if_neg hv]
          rw [hstep, ih]
          simp only [expandAdds, hp, if_pos hn, if_neg hv, List.append_assoc, List.singleton_append]
      · have hstep : expandOutputStep input_to_node nodes ⟨q, v, ins, outs⟩ name =
            ⟨q, v, ins, outs ++ [name]⟩ := by
          unfold expandOutputStep
          simp only [hp, if_neg hn]
        rw [hstep, ih]
        simp only [expandAdds, hp, if_neg hn, List.append_assoc, List.singleton_append]

theorem expandAdds_mem (f : String → Option TraceNode) (nodes v : List TraceNode)
    (names : List String) (p : TraceNode) (hp : p ∈ (expandAdds f nodes v names).1) :
    p ∈ nodes ∧ p ∉ v ∧ ∃ name ∈ names, f name = some p := by
  induction names generalizing v with
  | nil => simp [expandAdds] at hp
  | cons name rest ih =>
    cases hf : f name with
    | none =>
      simp only [expandAdds, hf] at hp
      obtain ⟨h1, h2, nm, h3, h4⟩ := ih v hp
      exact ⟨h1, h2, nm, List.mem_cons_of_mem _ h3, h4⟩
    | some p0 =>
      by_cases hn : p0 ∈ nodes
      · by_cases hv : p0 ∈ v
        · simp only [expandAdds, hf, if_pos hn, if_pos hv] at hp
          obtain ⟨h1, h2, nm, h3, h4⟩ := ih v hp
          exact ⟨h1, h2, nm, List.mem_cons_of_mem _ h3, h4⟩
        · simp only [expandAdds, hf, if_pos hn, if_neg hv] at hp
          rcases List.mem_cons.mp hp with h1 | h1
          · subst h1
            exact ⟨hn, hv, name, List.mem_cons_self name rest, hf⟩
          · obtain ⟨h1', h2, nm, h3, h4⟩ := ih (v ++ [p0]) h1
            refine ⟨h1', fun hmem => h2 (by rw [List.mem_append]; exact Or.inl hmem),
              nm, List.mem_cons_of_mem _ h3, h4⟩
      · simp only [expandAdds, hf, if_neg hn] at hp
        obtain ⟨h1, h2, nm, h3, h4⟩ := ih v hp
        exact ⟨h1, h2, nm, List.mem_cons_of_mem _ h3, h4⟩

theorem expandAdds_nodup (f : String → Option TraceNode) (nodes : List TraceNode)
    (names : List String) (v : List TraceNode) (hv : v.Nodup) :
    (v ++ (expandAdds f nodes v names).1).Nodup := by
  induction names generalizing v with
  | nil => simpa [expandAdds] using hv
  | cons name rest ih =>
    cases hf : f name with
    | none =>
      simp only [expandAdds, hf]
      exact ih v hv
    | some p0 =>
      by_cases hn : p0 ∈ nodes
      · by_cases hvm : p0 ∈ v
        · simp only [expandAdds, hf, if_pos hn, if_pos hvm]
          exact ih v hv
        · simp only [expandAdds, hf, if_pos hn, if_neg hvm]
          have hv' : (v ++ [p0]).Nodup := by
            rw [List.nodup_append]
            exact ⟨hv, List.nodup_singleton p0,
              fun a ha hb => hvm ((List.mem_singleton.mp hb) ▸ ha)⟩
          have := ih (v ++ [p0]) hv'
          rwa [List.append_assoc, List.singleton_append] at this
      · simp only [expandAdds, hf, if_neg hn]
        exact ih v hv

theorem expandAdds_complete (f : String → Option TraceNode) (nodes : List TraceNode)
    (names : List String) (v : List TraceNode) (name : String) (hname : name ∈ names)
    (p : TraceNode) (hf : f name = some p) (hn : p ∈ nodes) :
    p ∈ v ++ (expandAdds f nodes v names).1 := by
  induction names generalizing v with
  | nil => exact absurd hname (List.not_mem_nil name)
  | cons nm rest ih =>
    cases hfm : f nm with
    | none =>
      simp only [expandAdds, hfm]
      rcases List.mem_cons.mp hname with h1 | h1
      · rw [h1, hfm] at hf
        exact Option.noConfusion hf
      · exact ih v h1
    | some p0 =>
      by_cases hnn : p0 ∈ nodes
      · by_cases hvm : p0 ∈ v
        · simp only [expandAdds, hfm, if_pos hnn, if_pos hvm]
          rcases List.mem_cons.mp hname with h1 | h1
          · rw [h1, hfm] at hf
            have := Option.some.inj hf
            subst this
            rw [List.mem_append]
            exact Or.inl hvm
          · exact ih v h1
        · simp only [expandAdds, hfm, if_pos hnn, if_neg hvm]
          rcases List.mem_cons.mp hname with h1 | h1
          · rw [h1, hfm] at hf
            have := Option.some.inj hf
            subst this
            rw [List.mem_append]
            exact Or.inr (List.mem_cons_self _ _)
          · have := ih (v ++ [p0]) h1
            rwa [List.append_assoc, List.singleton_append] at this
      · simp only [expandAdds, hfm, if_neg hnn]
        rcases List.mem_cons.mp hname with h1 | h1
        · rw [h1, hfm] at hf
          have := Option.some.inj hf
          subst this
          exact absurd hn hnn
        · exact ih v h1

theorem expandAdds_ext (f : String → Option TraceNode) (nodes : List TraceNode)
    (names : List String) (v : List TraceNode) :
    (expandAdds f nodes v names).2 = names.filter (externalVia f nodes) := by
  induction names generalizing v with
  | nil => simp [expandAdds]
  | cons name rest ih =>
    cases hf : f name with
    | none =>
      have hext : externalVia f nodes name = true := by
        unfold externalVia
        simp only [hf]
      simp only [expandAdds, hf, List.filter_cons, hext, if_pos rfl]
      rw [ih]
      simp
    | some p0 =>
      by_cases hn : p0 ∈ nodes
      · have hext : externalVia f nodes name = false := by
          unfold externalVia
          simp only [hf, decide_eq_false_iff_not, Decidable.not_not]
          exact hn
        by_cases hv : p0 ∈ v
        · simp only [expandAdds, hf, if_pos hn, if_pos hv, List.filter_cons, hext]
          rw [ih]
          simp
        · simp only [expandAdds, hf, if_pos hn, if_neg hv, List.filter_cons, hext]
          rw [ih]
          simp
      · have hext : externalVia f nodes name = true := by
          unfold externalVia
          simp only [hf, decide_eq_true_eq]
          exact hn
        simp only [expandAdds, hf, if_neg hn, List.filter_cons, hext, if_pos rfl]
        rw [ih]
        simp

theorem expandAdds_measure (f : String → Option TraceNode) (nodes : List TraceNode)
    (names : List String) (v : List TraceNode) (hv : v.Nodup) :
    (nodes.toFinset \ (v ++ (expandAdds f nodes v names).1).toFinset).card +
      (expandAdds f nodes v names).1.length =
      (nodes.toFinset \ v.toFinset).card := by
  have hnd := expandAdds_nodup f nodes names v hv
  have hAnd : (expandAdds f nodes v names).1.Nodup := hnd.of_append_right
  have hsub : (expandAdds f nodes v names).1.toFinset ⊆ nodes.toFinset \ v.toFinset := by
    intro a ha
    rw [List.mem_toFinset] at ha
    obtain ⟨h1, h2, -⟩ := expandAdds_mem f nodes v names a ha
    rw [Finset.mem_sdiff, List.mem_toFinset, List.mem_toFinset]
    exact ⟨h1, h2⟩
  have hunion : (v ++ (expandAdds f nodes v names).1).toFinset =
      v.toFinset ∪ (expandAdds f nodes v names).1.toFinset := by
    simp [List.toFinset_append]
  rw [hunion]
  have hsd : nodes.toFinset \ (v.toFinset ∪ (expandAdds f nodes v names).1.toFinset) =
      (nodes.toFinset \ v.toFinset) \ (expandAdds f nodes v names).1.toFinset := by
    rw [Finset.sdiff_sdiff_left']
    ext a
    simp [Finset.mem_sdiff]
    tauto
  rw [hsd, Finset.card_sdiff hsub, List.toFinset_card_of_nodup hAnd]
  have hle := Finset.card_le_card hsub
  rw [List.toFinset_card_of_nodup hAnd] at hle
  omega

theorem expandProcessNode_eq (output_to_node input_to_node : String → Option TraceNode)
    (nodes : List TraceNode) (q v : List TraceNode) (ins outs : List String)
    (curr : TraceNode) :
    expandProcessNode output_to_node input_to_node nodes ⟨q, v, ins, outs⟩ curr =
      ⟨q ++ (expandAdds output_to_node nodes v curr.inputs).1
         ++ (expandAdds input_to_node nodes (v ++ (expandAdds output_to_node nodes v
              curr.inputs).1) curr.outputs).1,
       v ++ (expandAdds output_to_node nodes v curr.inputs).1
         ++ (expandAdds input_to_node nodes (v ++ (expandAdds output_to_node nodes v
              curr.inputs).1) curr.outputs).1,
       ins ++ (expandAdds output_to_node nodes v curr.inputs).2,
       outs ++ (expandAdds input_to_node nodes (v ++ (expandAdds output_to_node nodes v
         curr.inputs).1) curr.outputs).2⟩ := by
  unfold expandProcessNode
  rw [foldExpand_inputs, foldExpand_outputs]

theorem expandStep_inv (output_to_node input_to_node : String → Option TraceNode)
    (nodes : List TraceNode) (seed : TraceNode)
    (curr : TraceNode) (rest v : List TraceNode) (ins outs : List String)
    (hinv : ExpandInv output_to_node input_to_node nodes seed ⟨curr :: rest, v, ins, outs⟩) :
    ExpandInv output_to_node input_to_node nodes seed
      (expandProcessNode output_to_node input_to_node nodes ⟨rest, v, ins, outs⟩ curr) ∧
    expandMeasure nodes
        (expandProcessNode output_to_node input_to_node nodes ⟨rest, v, ins, outs⟩ curr)
      < expandMeasure nodes ⟨curr :: rest, v, ins, outs⟩ := by
  obtain ⟨hqv, hvnd, hqnd, hsv, hvn, hreach, hclosed, hins, houts⟩ := hinv
  rw [expandProcessNode_eq]
  set A1 := (expandAdds output_to_node nodes v curr.inputs).1 with hA1
  set E1 := (expandAdds output_to_node nodes v curr.inputs).2 with hE1
  set A2 := (expandAdds input_to_node nodes (v ++ A1) curr.outputs).1 with hA2
  set E2 := (expandAdds input_to_node nodes (v ++ A1) curr.outputs).2 with hE2
  have hcurrv : curr ∈ v := hqv curr (List.mem_cons_self curr rest)
  have hcurrrest : curr ∉ rest := (List.nodup_cons.mp hqnd).1
  have hrestnd : rest.Nodup := (List.nodup_cons.mp hqnd).2
  have hrestv : ∀ x ∈ rest, x ∈ v := fun x hx => hqv x (List.mem_cons_of_mem _ hx)
  have hA1mem : ∀ p ∈ A1, p ∈ nodes ∧ p ∉ v ∧ ∃ name ∈ curr.inputs,
      output_to_node name = some p :=
    fun p hp => expandAdds_mem output_to_node nodes v curr.inputs p hp
  have hvA1nd : (v ++ A1).Nodup := expandAdds_nodup output_to_node nodes curr.inputs v hvnd
  have hA2mem : ∀ p ∈ A2, p ∈ nodes ∧ p ∉ v ++ A1 ∧ ∃ name ∈ curr.outputs,
      input_to_node name = some p :=
    fun p hp => expandAdds_mem input_to_node nodes (v ++ A1) curr.outputs p hp
  have hvAnd : (v ++ A1 ++ A2).Nodup :=
    expandAdds_nodup input_to_node nodes curr.outputs (v ++ A1) hvA1nd
  have hE1eq : E1 = curr.inputs.filter (externalVia output_to_node nodes) :=
    expandAdds_ext output_to_node nodes curr.inputs v
  have hE2eq : E2 = curr.outputs.filter (externalVia input_to_node nodes) :=
    expandAdds_ext input_to_node nodes curr.outputs (v ++ A1)
  have hmemnew : ∀ x, x ∈ v ++ A1 ++ A2 ↔ (x ∈ v ∨ x ∈ A1 ∨ x ∈ A2) := by
    intro x
    simp [List.mem_append, or_assoc]
  have hmemq : ∀ x, x ∈ rest ++ A1 ++ A2 ↔ (x ∈ rest ∨ x ∈ A1 ∨ x ∈ A2) := by
    intro x
    simp [List.mem_append, or_assoc]
  have hvsub : ∀ x ∈ v, x ∈ v ++ A1 ++ A2 := by
    intro x hx
    rw [hmemnew]
    exact Or.inl hx
  have hA1sub : ∀ x ∈ A1, x ∈ v ++ A1 ++ A2 := by
    intro x hx
    rw [hmemnew]
    exact Or.inr (Or.inl hx)
  have hA2sub : ∀ x ∈ A2, x ∈ v ++ A1 ++ A2 := by
    intro x hx
    rw [hmemnew]
    exact Or.inr (Or.inr hx)
  have hA1nv : ∀ x ∈ A1, x ∉ v := fun x hx => (hA1mem x hx).2.1
  have hA2nv : ∀ x ∈ A2, x ∉ v ∧ x ∉ A1 := by
    intro x hx
    have h2 := (hA2mem x hx).2.1
    rw [List.mem_append] at h2
    exact ⟨fun hv => h2 (Or.inl hv), fun hA => h2 (Or.inr hA)⟩
  constructor
  · refine ⟨?_, ?_, ?_, ?_, ?_, ?_, ?_, ?_, ?_⟩
    · -- queue ⊆ visited
      intro x hx
      rw [hmemq] at hx
      rcases hx with h | h | h
      · exact hvsub x (hrestv x h)
      · exact hA1sub x h
      · exact hA2sub x h
    · exact hvAnd
    · -- queue nodup
      have hA1nd : A1.Nodup := hvA1nd.of_append_right
      have hA2nd : A2.Nodup := hvAnd.of_append_right
      rw [List.nodup_append]
      refine ⟨?_, hA2nd, ?_⟩
      · rw [List.nodup_append]
        exact ⟨hrestnd, hA1nd, fun a ha hb => hA1nv a hb (hrestv a ha)⟩
      · intro a ha hb
        rw [List.mem_append] at ha
        rcases ha with h | h
        · exact (hA2nv a hb).1 (hrestv a h)
        · exact (hA2nv a hb).2 h
    · exact hvsub seed hsv
    · -- visited ⊆ nodes
      intro x hx
      rw [hmemnew] at hx
      rcases hx with h | h | h
      · exact hvn x h
      · exact (hA1mem x h).1
      · exact (hA2mem x h).1
    · -- reachability
      intro x hx
      rw [hmemnew] at hx
      rcases hx with h | h | h
      · exact hreach x h
      · obtain ⟨hn, -, name, hname, hf⟩ := hA1mem x h
        exact Relation.ReflTransGen.tail (hreach curr hcurrv) (Or.inl ⟨name, hname, hf, hn⟩)
      · obtain ⟨hn, -, name, hname, hf⟩ := hA2mem x h
        exact Relation.ReflTransGen.tail (hreach curr hcurrv) (Or.inr ⟨name, hname, hf, hn⟩)
    · -- closedness of processed nodes
      intro g hg hgq
      rw [hmemnew] at hg
      rcases hg with hgv | hgA | hgA
      · by_cases hgc : g = curr
        · subst hgc
          constructor
          · intro name hname p hf hn
            have := expandAdds_complete output_to_node nodes g.inputs v name hname p hf hn
            rw [List.mem_append] at this
            rcases this with h | h
            · exact hvsub p h
            · exact hA1sub p h
          · intro name hname s hf hn
            have := expandAdds_complete input_to_node nodes g.outputs (v ++ A1) name hname s hf hn
            rw [List.mem_append] at this
            rcases this with h | h
            · rw [List.mem_append] at h
              rcases h with h2 | h2
              · exact hvsub s h2
              · exact hA1sub s h2
            · exact hA2sub s h
        · have hgrest : g ∉ rest := fun hr => hgq (by rw [hmemq]; exact Or.inl hr)
          have hgold : g ∉ curr :: rest := by
            intro hmem
            rcases List.mem_cons.mp hmem with h | h
            · exact hgc h
            · exact hgrest h
          obtain ⟨hcl1, hcl2⟩ := hclosed g hgv hgold
          exact ⟨fun name hname p hf hn => hvsub p (hcl1 name hname p hf hn),
            fun name hname s hf hn => hvsub s (hcl2 name hname s hf hn)⟩
      · exact absurd (by rw [hmemq]; exact Or.inr (Or.inl hgA)) hgq
      · exact absurd (by rw [hmemq]; exact Or.inr (Or.inr hgA)) hgq
    · -- ins characterization
      intro name
      rw [List.mem_append]
      constructor
      · rintro (h | h)
        · obtain ⟨g, hg, hgq, hname, hext⟩ := (hins name).mp h
          have hgrest : g ∉ rest := fun hr => hgq (List.mem_cons_of_mem _ hr)
          have hgv' : g ∈ v := hg
          refine ⟨g, hvsub g hg, ?_, hname, hext⟩
          intro hmem
          rw [hmemq] at hmem
          rcases hmem with h2 | h2 | h2
          · exact hgrest h2
          · exact hA1nv g h2 hgv'
          · exact (hA2nv g h2).1 hgv'
        · rw [hE1eq, List.mem_filter] at h
          refine ⟨curr, hvsub curr hcurrv, ?_, h.1, h.2⟩
          intro hmem
          rw [hmemq] at hmem
          rcases hmem with h2 | h2 | h2
          · exact hcurrrest h2
          · exact hA1nv curr h2 hcurrv
          · exact (hA2nv curr h2).1 hcurrv
      · rintro ⟨g, hg, hgq, hname, hext⟩
        rw [hmemnew] at hg
        rcases hg with hgv | hgA | hgA
        · by_cases hgc : g = curr
          · subst hgc
            right
            rw [hE1eq, List.mem_filter]
            exact ⟨hname, hext⟩
          · left
            have hgrest : g ∉ rest := fun hr => hgq (by rw [hmemq]; exact Or.inl hr)
            have hgold : g ∉ curr :: rest := by
              intro hmem
              rcases List.mem_cons.mp hmem with h | h
              · exact hgc h
              · exact hgrest h
            exact (hins name).mpr ⟨g, hgv, hgold, hname, hext⟩
        · exact absurd (by rw [hmemq]; exact Or.inr (Or.inl hgA)) hgq
        · exact absurd (by rw [hmemq]; exact Or.inr (Or.inr hgA)) hgq
    · -- outs characterization
      intro name
      rw [List.mem_append]
      constructor
      · rintro (h | h)
        · obtain ⟨g, hg, hgq, hname, hext⟩ := (houts name).mp h
          have hgrest : g ∉ rest := fun hr => hgq (List.mem_cons_of_mem _ hr)
          have hgv' : g ∈ v := hg
          refine ⟨g, hvsub g hg, ?_, hname, hext⟩
          intro hmem
          rw [hmemq] at hmem
          rcases hmem with h2 | h2 | h2
          · exact hgrest h2
          · exact hA1nv g h2 hgv'
          · exact (hA2nv g h2).1 hgv'
        · rw [hE2eq, List.mem_filter] at h
          refine ⟨curr, hvsub curr hcurrv, ?_, h.1, h.2⟩
          intro hmem
          rw [hmemq] at hmem
          rcases hmem with h2 | h2 | h2
          · exact hcurrrest h2
          · exact hA1nv curr h2 hcurrv
          · exact (hA2nv curr h2).1 hcurrv
      · rintro ⟨g, hg, hgq, hname, hext⟩
        rw [hmemnew] at hg
        rcases hg with hgv | hgA | hgA
        · by_cases hgc : g = curr
          · subst hgc
            right
            rw [hE2eq, List.mem_filter]
            exact ⟨hname, hext⟩
          · left
            have hgrest : g ∉ rest := fun hr => hgq (by rw [hmemq]; exact Or.inl hr)
            have hgold : g ∉ curr :: rest := by
              intro hmem
              rcases List.mem_cons.mp hmem with h | h
              · exact hgc h
              · exact hgrest h
            exact (houts name).mpr ⟨g, hgv, hgold, hname, hext⟩
        · exact absurd (by rw [hmemq]; exact Or.inr (Or.inl hgA)) hgq
        · exact absurd (by rw [hmemq]; exact Or.inr (Or.inr hgA)) hgq
  · -- measure decrease
    have m1 : (nodes.toFinset \ (v ++ A1).toFinset).card + A1.length =
        (nodes.toFinset \ v.toFinset).card :=
      expandAdds_measure output_to_node nodes curr.inputs v hvnd
    have m2 : (nodes.toFinset \ (v ++ A1 ++ A2).toFinset).card + A2.length =
        (nodes.toFinset \ (v ++ A1).toFinset).card :=
      expandAdds_measure input_to_node nodes curr.outputs (v ++ A1) hvA1nd
    unfold expandMeasure
    simp only [List.length_append, List.length_cons]
    omega

theorem expandLoop_post (output_to_node input_to_node : String → Option TraceNode)
    (nodes : List TraceNode) (seed : TraceNode) (fuel : Nat) (st : ExpandState)
    (hinv : ExpandInv output_to_node input_to_node nodes seed st)
    (hfuel : expandMeasure nodes st ≤ fuel) :
    (expandLoop output_to_node input_to_node nodes fuel st).queue = [] ∧
    ExpandInv output_to_node input_to_node nodes seed
      (expandLoop output_to_node input_to_node nodes fuel st) := by
  induction fuel generalizing st with
  | zero =>
    have hq : st.queue = [] := by
      unfold expandMeasure at hfuel
      exact List.length_eq_zero.mp (by omega)
    simp only [expandLoop]
    exact ⟨hq, hinv⟩
  | succ fuel ih =>
    obtain ⟨q, v, ins, outs⟩ := st
    cases q with
    | nil =>
      simp only [expandLoop]
      exact ⟨trivial, hinv⟩
    | cons curr rest =>
      have hstep := expandStep_inv output_to_node input_to_node nodes seed curr rest v ins
        outs hinv
      have hle : expandMeasure nodes
          (expandProcessNode output_to_node input_to_node nodes ⟨rest, v, ins, outs⟩ curr)
          ≤ fuel := by
        have h1 := hstep.2
        omega
      have hrec := ih _ hstep.1 hle
      rw [show expandLoop output_to_node input_to_node nodes (fuel+1)
            ⟨curr :: rest, v, ins, outs⟩
          = expandLoop output_to_node input_to_node nodes fuel
            (expandProcessNode output_to_node input_to_node nodes ⟨rest, v, ins, outs⟩ curr)
        from rfl]
      exact hrec

/-- C2: for a seed node of the scope list `nodes` (without duplicates), the
group built by `_expand_module_node` contains, exactly once each, exactly
the nodes reachable from the seed by repeatedly following the
`output_to_node` (predecessor) and `input_to_node` (successor) adjacency
within `nodes`; and its `inputs`/`outputs` lists contain exactly the debug
names of input/output edges of group members whose mapped other endpoint
lies outside the group (or is absent from the index). -/
theorem expand_module_node_spec (output_to_node input_to_node : String → Option TraceNode)
    (nodes : List TraceNode) (node : TraceNode)
    (node_name unique_name op_type module_type : String)
    (hseed : node ∈ nodes) (hnodes : nodes.Nodup) :
    ((_expand_module_node output_to_node input_to_node nodes node node_name unique_name
        op_type module_type).node_cpps.Nodup) ∧
    (∀ x, x ∈ (_expand_module_node output_to_node input_to_node nodes node node_name
        unique_name op_type module_type).node_cpps ↔
      reaches output_to_node input_to_node nodes node x) ∧
    (∀ x ∈ (_expand_module_node output_to_node input_to_node nodes node node_name
        unique_name op_type module_type).node_cpps, x ∈ nodes) ∧
    (∀ name, name ∈ (_expand_module_node output_to_node input_to_node nodes node node_name
        unique_name op_type module_type).inputs ↔
      ∃ g ∈ (_expand_module_node output_to_node input_to_node nodes node node_name
        unique_name op_type module_type).node_cpps, name ∈ g.inputs ∧
        ∀ p, output_to_node name = some p →
          p ∉ (_expand_module_node output_to_node input_to_node nodes node node_name
            unique_name op_type module_type).node_cpps) ∧
    (∀ name, name ∈ (_expand_module_node output_to_node input_to_node nodes node node_name
        unique_name op_type module_type).outputs ↔
      ∃ g ∈ (_expand_module_node output_to_node input_to_node nodes node node_name
        unique_name op_type module_type).node_cpps, name ∈ g.outputs ∧
        ∀ s, input_to_node name = some s →
          s ∉ (_expand_module_node output_to_node input_to_node nodes node node_name
            unique_name op_type module_type).node_cpps) := by
  have hinv0 : ExpandInv output_to_node input_to_node nodes node
      ⟨[node], [node], [], []⟩ := by
    refine ⟨fun x hx => hx, List.nodup_singleton node, List.nodup_singleton node,
      List.mem_singleton_self node, ?_, ?_, ?_, ?_, ?_⟩
    · intro x hx
      rw [List.mem_singleton.mp hx]
      exact hseed
    · intro x hx
      rw [List.mem_singleton.mp hx]
      exact Relation.ReflTransGen.refl
    · intro g hg hgq
      exact absurd hg hgq
    · intro name
      exact ⟨fun h => absurd h (List.not_mem_nil name),
        fun ⟨g, hg, hgq, _, _⟩ => absurd hg hgq⟩
    · intro name
      exact ⟨fun h => absurd h (List.not_mem_nil name),
        fun ⟨g, hg, hgq, _, _⟩ => absurd hg hgq⟩
  have hfuel : expandMeasure nodes ⟨[node], [node], [], []⟩ ≤ 2 * nodes.length + 1 := by
    unfold expandMeasure
    have h1 : (nodes.toFinset \ ([node] : List TraceNode).toFinset).card ≤ nodes.length :=
      le_trans (Finset.card_le_card Finset.sdiff_subset) (List.toFinset_card_le nodes)
    simp only [List.length_singleton]
    omega
  obtain ⟨hqe, hinvf⟩ := expandLoop_post output_to_node input_to_node nodes node
    (2 * nodes.length + 1) ⟨[node], [node], [], []⟩ hinv0 hfuel
  obtain ⟨hqv, hvnd, hqnd, hsv, hvn, hreach, hclosed, hins, houts⟩ := hinvf
  have hnq : ∀ g : TraceNode, g ∉ (expandLoop output_to_node input_to_node nodes
      (2 * nodes.length + 1) ⟨[node], [node], [], []⟩).queue := by
    intro g
    rw [hqe]
    exact List.not_mem_nil g
  refine ⟨hvnd, ?_, hvn, ?_, ?_⟩
  · intro x
    constructor
    · exact hreach x
    · intro hr
      induction hr with
      | refl => exact hsv
      | tail hab hbc ih =>
        rcases hbc with ⟨name, hname, hf, hn⟩ | ⟨name, hname, hf, hn⟩
        · exact (hclosed _ ih (hnq _)).1 name hname _ hf hn
        · exact (hclosed _ ih (hnq _)).2 name hname _ hf hn
  · intro name
    have h8 := hins name
    constructor
    · intro h
      obtain ⟨g, hg, -, hname, hext⟩ := h8.mp h
      refine ⟨g, hg, hname, ?_⟩
      intro p hf hmem
      unfold externalVia at hext
      rw [hf, decide_eq_true_eq] at hext
      exact hext (hvn p hmem)
    · rintro ⟨g, hg, hname, hnp⟩
      apply h8.mpr
      refine ⟨g, hg, hnq g, hname, ?_⟩
      unfold externalVia
      cases hf : output_to_node name with
      | none => rfl
      | some p =>
        rw [decide_eq_true_eq]
        intro hn
        exact hnp p hf ((hclosed g hg (hnq g)).1 name hname p hf hn)
  · intro name
    have h9 := houts name
    constructor
    · intro h
      obtain ⟨g, hg, -, hname, hext⟩ := h9.mp h
      refine ⟨g, hg, hname, ?_⟩
      intro s hf hmem
      unfold externalVia at hext
      rw [hf, decide_eq_true_eq] at hext
      exact hext (hvn s hmem)
    · rintro ⟨g, hg, hname, hns⟩
      apply h9.mpr
      refine ⟨g, hg, hnq g, hname, ?_⟩
      unfold externalVia
      cases hf : input_to_node name with
      | none => rfl
      | some s =>
        rw [decide_eq_true_eq]
        intro hn
        exact hns s hf ((hclosed g hg (hnq g)).2 name hname s hf hn)

/-- C2 witness: the BFS specification applied to the concrete two-node graph
`exN1 ⟶ exN2` (scope list `[exN1, exN2]`, seed `exN1`). -/
theorem expand_module_node_spec_witness :
    ((_expand_module_node exOtn exItn [exN1, exN2] exN1 "m" "m" "Conv2d"
        "module").node_cpps.Nodup) ∧
    (∀ x, x ∈ (_expand_module_node exOtn exItn [exN1, exN2] exN1 "m" "m" "Conv2d"
        "module").node_cpps ↔ reaches exOtn exItn [exN1, exN2] exN1 x) ∧
    (∀ x ∈ (_expand_module_node exOtn exItn [exN1, exN2] exN1 "m" "m" "Conv2d"
        "module").node_cpps, x ∈ [exN1, exN2]) ∧
    (∀ name, name ∈ (_expand_module_node exOtn exItn [exN1, exN2] exN1 "m" "m" "Conv2d"
        "module").inputs ↔
      ∃ g ∈ (_expand_module_node exOtn exItn [exN1, exN2] exN1 "m" "m" "Conv2d"
        "module").node_cpps, name ∈ g.inputs ∧
        ∀ p, exOtn name = some p →
          p ∉ (_expand_module_node exOtn exItn [exN1, exN2] exN1 "m" "m" "Conv2d"
            "module").node_cpps) ∧
    (∀ name, name ∈ (_expand_module_node exOtn exItn [exN1, exN2] exN1 "m" "m" "Conv2d"
        "module").outputs ↔
      ∃ g ∈ (_expand_module_node exOtn exItn [exN1, exN2] exN1 "m" "m" "Conv2d"
        "module").node_cpps, name ∈ g.outputs ∧
        ∀ s, exItn name = some s →
          s ∉ (_expand_module_node exOtn exItn [exN1, exN2] exN1 "m" "m" "Conv2d"
            "module").node_cpps) :=
  expand_module_node_spec exOtn exItn [exN1, exN2] exN1 "m" "m" "Conv2d" "module"
    (by decide) (by decide)

/-! ## Claim C3: `build_module_hierarchy` -/

/-- `attach_node_to_tree` never changes the root's names. -/
theorem attach_fields (g : String) (sl : List String) (t : TreeNode) :
    (attach_node_to_tree t sl g).local_name = t.local_name ∧
      (attach_node_to_tree t sl g).full_name = t.full_name := by
  cases sl with
  | nil => exact ⟨rfl, rfl⟩
  | cons name rest =>
    obtain ⟨l, f, gs, cs⟩ := t
    cases h : dictGet? cs name with
    | some c =>
      simp [attach_node_to_tree, TreeNode.child_tnodes, h, TreeNode.local_name,
        TreeNode.full_name]
    | none =>
      simp [attach_node_to_tree, TreeNode.child_tnodes, h, TreeNode.local_name,
        TreeNode.full_name]

/-- Attaching a group creates no new tree nodes: path existence is untouched. -/
theorem attach_pathExists (g : String) (sl : List String) :
    ∀ (t : TreeNode) (q : List String),
      pathExists (attach_node_to_tree t sl g) q = pathExists t q := by
  induction sl with
  | nil => intro t q; rfl
  | cons name rest ih =>
    intro t q
    obtain ⟨l, f, gs, cs⟩ := t
    cases h : dictGet? cs name with
    | some c =>
      cases q with
      | nil => simp [pathExists]
      | cons m qr =>
        simp only [attach_node_to_tree, TreeNode.child_tnodes, h, pathExists,
          dictGet?_dictSet]
        by_cases hm : m = name
        · subst hm
          rw [h]
          simp [ih]
        · simp [hm]
    | none =>
      cases q with
      | nil => simp [pathExists]
      | cons m qr =>
        simp only [attach_node_to_tree, TreeNode.child_tnodes, h, pathExists]

/-- Attaching a group keeps every `pathConsistent` fact (in both directions):
it only ever appends to `graph_nodes` lists. -/
theorem attach_pathConsistent (g : String) (sl : List String) :
    ∀ (t : TreeNode) (acc q : List String),
      pathConsistent (attach_node_to_tree t sl g) acc q ↔ pathConsistent t acc q := by
  induction sl with
  | nil => intro t acc q; rfl
  | cons name rest ih =>
    intro t acc q
    obtain ⟨l, f, gs, cs⟩ := t
    cases h : dictGet? cs name with
    | some c =>
      cases q with
      | nil => simp [pathConsistent]
      | cons m qr =>
        simp only [attach_node_to_tree, TreeNode.child_tnodes, h, pathConsistent,
          dictGet?_dictSet]
        by_cases hm : m = name
        · subst hm
          rw [h]
          simp only [eq_self_iff_true, if_true, Option.some.injEq]
          constructor
          · rintro ⟨c', hc', h1, h2, h3⟩
            subst hc'
            exact ⟨c, rfl, by rw [← (attach_fields g rest c).1]; exact h1,
              by rw [← (attach_fields g rest c).2]; exact h2, (ih c (acc ++ [m]) qr).mp h3⟩
          · rintro ⟨c', hc', h1, h2, h3⟩
            subst hc'
            exact ⟨attach_node_to_tree c rest g, rfl,
              by rw [(attach_fields g rest c).1]; exact h1,
              by rw [(attach_fields g rest c).2]; exact h2,
              (ih c (acc ++ [m]) qr).mpr h3⟩
        · simp [hm]
    | none =>
      cases q with
      | nil => simp [pathConsistent]
      | cons m qr =>
        simp only [attach_node_to_tree, TreeNode.child_tnodes, h, pathConsistent]

/-- Replacing the child of key `k` changes the multiset of attached groups by
exactly swapping the old child's contribution for the new one's. -/
theorem count_allL_dictSet_some (k : String) (c v : TreeNode) (x : String) :
    ∀ cs : List (String × TreeNode), dictGet? cs k = some c →
      (allGraphNodesL (dictSet cs k v)).count x + (allGraphNodes c).count x =
        (allGraphNodesL cs).count x + (allGraphNodes v).count x := by
  intro cs
  induction cs with
  | nil => intro h; simp [dictGet?] at h
  | cons p rest ih =>
    obtain ⟨n, c'⟩ := p
    intro h
    by_cases hk : n = k
    · subst hk
      simp only [dictGet?, eq_self_iff_true, if_true, Option.some.injEq] at h
      subst h
      simp only [dictSet, eq_self_iff_true, if_true, allGraphNodesL, List.count_append]
      omega
    · simp only [dictGet?, if_neg hk] at h
      simp only [dictSet, if_neg hk, allGraphNodesL, List.count_append]
      have := ih h
      omega

/-- Adding a child under a fresh key adds exactly that child's groups. -/
theorem count_allL_dictSet_none (k : String) (v : TreeNode) (x : String) :
    ∀ cs : List (String × TreeNode), dictGet? cs k = none →
      (allGraphNodesL (dictSet cs k v)).count x =
        (allGraphNodesL cs).count x + (allGraphNodes v).count x := by
  intro cs
  induction cs with
  | nil => intro _; simp [dictSet, allGraphNodesL, List.count_append]
  | cons p rest ih =>
    obtain ⟨n, c'⟩ := p
    intro h
    by_cases hk : n = k
    · subst hk; simp [dictGet?] at h
    · simp only [dictGet?, if_neg hk] at h
      simp only [dictSet, if_neg hk, allGraphNodesL, List.count_append]
      have := ih h
      omega

/-- The attachment count of `attach_node_to_tree t sl g`: the group name `g`
gains exactly one occurrence when the walk hits a missing slice, and none when
the whole dot-split path already exists (the loop then ends without
attaching — source lines 388–395 append `node_pygroup` only in the
`slice not in current.child_tnodes` branch). -/
theorem attach_count (g x : String) (sl : List String) :
    ∀ t : TreeNode,
      (allGraphNodes (attach_node_to_tree t sl g)).count x =
        (allGraphNodes t).count x +
          (if x = g ∧ pathExists t sl = false then 1 else 0) := by
  induction sl with
  | nil => intro t; simp [attach_node_to_tree, pathExists]
  | cons name rest ih =>
    intro t
    obtain ⟨l, f, gs, cs⟩ := t
    cases h : dictGet? cs name with
    | some c =>
      simp only [attach_node_to_tree, TreeNode.child_tnodes, h, TreeNode.local_name,
        TreeNode.full_name, TreeNode.graph_nodes, pathExists, allGraphNodes,
        List.count_append]
      have h4 := count_allL_dictSet_some name c (attach_node_to_tree c rest g) x cs h
      have hIH := ih c
      by_cases hC : x = g ∧ pathExists c rest = false
      · rw [if_pos hC] at hIH ⊢
        omega
      · rw [if_neg hC] at hIH ⊢
        omega
    | none =>
      simp only [attach_node_to_tree, TreeNode.child_tnodes, h, TreeNode.graph_nodes,
        pathExists, allGraphNodes, List.count_append]
      by_cases hx : x = g
      · subst hx
        simp [List.count_singleton]
        omega
      · simp [List.count_singleton, hx, Ne.symm hx]

/-- `insert_scope_name` never changes the root's names. -/
theorem insert_fields (sl : List String) (t : TreeNode) (acc : List String) :
    (insert_scope_name t acc sl).local_name = t.local_name ∧
      (insert_scope_name t acc sl).full_name = t.full_name := by
  cases sl with
  | nil => exact ⟨rfl, rfl⟩
  | cons name rest =>
    simp [insert_scope_name, TreeNode.local_name, TreeNode.full_name]

/-- Phase one attaches no groups: `insert_scope_name` leaves every
`graph_nodes` list unchanged (new tree nodes start with `[]`). -/
theorem insert_count (x : String) (sl : List String) :
    ∀ (t : TreeNode) (acc : List String),
      (allGraphNodes (insert_scope_name t acc sl)).count x =
        (allGraphNodes t).count x := by
  induction sl with
  | nil => intro t acc; rfl
  | cons name rest ih =>
    intro t acc
    obtain ⟨l, f, gs, cs⟩ := t
    cases h : dictGet? cs name with
    | some c =>
      simp only [insert_scope_name, TreeNode.child_tnodes, h, TreeNode.local_name,
        TreeNode.full_name, TreeNode.graph_nodes, allGraphNodes, List.count_append]
      have h4 := count_allL_dictSet_some name c (insert_scope_name c (acc ++ [name]) rest)
        x cs h
      have hIH := ih c (acc ++ [name])
      omega
    | none =>
      simp only [insert_scope_name, TreeNode.child_tnodes, h, TreeNode.local_name,
        TreeNode.full_name, TreeNode.graph_nodes, allGraphNodes, List.count_append]
      have h4 := count_allL_dictSet_none name
        (insert_scope_name (TreeNode.mk name (dotJoinS (acc ++ [name])) [] [])
          (acc ++ [name]) rest) x cs h
      have hIH := ih (TreeNode.mk name (dotJoinS (acc ++ [name])) [] []) (acc ++ [name])
      have hz : (allGraphNodes (TreeNode.mk name (dotJoinS (acc ++ [name])) [] [])).count x
          = 0 := by
        simp [allGraphNodes, allGraphNodesL]
      omega

/-- In a well-formed child dict, a successful lookup returns a child carrying
its key as `local_name` and the dot-join of the path as `full_name`. -/
theorem TreeNodeOKL_lookup (acc : List String) (k : String) (c : TreeNode) :
    ∀ cs : List (String × TreeNode), TreeNodeOKL acc cs → dictGet? cs k = some c →
      c.local_name = k ∧ c.full_name = dotJoinS (acc ++ [k]) ∧
        TreeNodeOK (acc ++ [k]) c := by
  intro cs
  induction cs with
  | nil => intro _ h; simp [dictGet?] at h
  | cons p rest ih =>
    obtain ⟨n, c'⟩ := p
    intro hok h
    simp only [TreeNodeOKL] at hok
    by_cases hk : n = k
    · subst hk
      simp only [dictGet?, eq_self_iff_true, if_true, Option.some.injEq] at h
      subst h
      exact hok.1
    · simp only [dictGet?, if_neg hk] at h
      exact ih hok.2 h

/-- Replacing or adding a well-formed child keeps the child dict well-formed. -/
theorem TreeNodeOKL_dictSet (acc : List String) (k : String) (v : TreeNode)
    (h1 : v.local_name = k) (h2 : v.full_name = dotJoinS (acc ++ [k]))
    (h3 : TreeNodeOK (acc ++ [k]) v) :
    ∀ cs : List (String × TreeNode), TreeNodeOKL acc cs →
      TreeNodeOKL acc (dictSet cs k v) := by
  intro cs
  induction cs with
  | nil => intro _; simp only [dictSet, TreeNodeOKL]; exact ⟨⟨h1, h2, h3⟩, trivial⟩
  | cons p rest ih =>
    obtain ⟨n, c'⟩ := p
    intro hok
    simp only [TreeNodeOKL] at hok
    by_cases hk : n = k
    · subst hk
      simp only [dictSet, eq_self_iff_true, if_true, TreeNodeOKL]
      exact ⟨⟨h1, h2, h3⟩, hok.2⟩
    · simp only [dictSet, if_neg hk, TreeNodeOKL]
      exact ⟨hok.1, ih hok.2⟩

/-- `insert_scope_name` preserves tree well-formedness: every child it creates
is keyed by its slice, named by the slice, and carries
`'.'.join(name_slices[:i+1])` as `full_name` (source line 371). -/
theorem insert_TreeNodeOK (sl : List String) :
    ∀ (t : TreeNode) (acc : List String), TreeNodeOK acc t →
      TreeNodeOK acc (insert_scope_name t acc sl) := by
  induction sl with
  | nil => intro t acc h; exact h
  | cons name rest ih =>
    intro t acc hok
    obtain ⟨l, f, gs, cs⟩ := t
    simp only [TreeNodeOK] at hok
    cases h : dictGet? cs name with
    | some c =>
      have hc := TreeNodeOKL_lookup acc name c cs hok h
      simp only [insert_scope_name, TreeNode.child_tnodes, h, TreeNodeOK]
      refine TreeNodeOKL_dictSet acc name _ ?_ ?_ ?_ cs hok
      · rw [(insert_fields rest c (acc ++ [name])).1]; exact hc.1
      · rw [(insert_fields rest c (acc ++ [name])).2]; exact hc.2.1
      · exact ih c (acc ++ [name]) hc.2.2
    | none =>
      simp only [insert_scope_name, TreeNode.child_tnodes, h, TreeNodeOK]
      refine TreeNodeOKL_dictSet acc name _ ?_ ?_ ?_ cs hok
      · rw [(insert_fields rest _ (acc ++ [name])).1]; rfl
      · rw [(insert_fields rest _ (acc ++ [name])).2]; rfl
      · refine ih _ (acc ++ [name]) ?_
        simp [TreeNodeOK, TreeNode.child_tnodes, TreeNodeOKL]

/-- After `insert_scope_name t acc sl`, the path `sl` exists below `t`. -/
theorem insert_pathExists_self (sl : List String) :
    ∀ (t : TreeNode) (acc : List String),
      pathExists (insert_scope_name t acc sl) sl = true := by
  induction sl with
  | nil => intro t acc; rfl
  | cons name rest ih =>
    intro t acc
    obtain ⟨l, f, gs, cs⟩ := t
    simp only [insert_scope_name, TreeNode.child_tnodes, pathExists, dictGet?_dictSet,
      eq_self_iff_true, if_true]
    exact ih _ (acc ++ [name])

/-- `insert_scope_name` only adds tree nodes: existing paths keep existing. -/
theorem insert_pathExists_mono (sl : List String) :
    ∀ (t : TreeNode) (acc q : List String), pathExists t q = true →
      pathExists (insert_scope_name t acc sl) q = true := by
  induction sl with
  | nil => intro t acc q h; exact h
  | cons name rest ih =>
    intro t acc q h
    obtain ⟨l, f, gs, cs⟩ := t
    cases q with
    | nil => rfl
    | cons m qr =>
      simp only [pathExists, TreeNode.child_tnodes] at h
      simp only [insert_scope_name, TreeNode.child_tnodes, pathExists, dictGet?_dictSet]
      by_cases hm : m = name
      · subst hm
        cases hl : dictGet? cs m with
        | some c =>
          simp only [hl] at h
          simp only [eq_self_iff_true, if_true, hl]
          exact ih c (acc ++ [m]) qr h
        | none => simp [hl] at h
      · simp only [if_neg hm]
        cases hl : dictGet? cs m with
        | some c => simp only [hl] at h ⊢; exact h
        | none => simp [hl] at h

/-- In a well-formed tree, every existing path is consistent: each tree node
along it carries its slice as `local_name` and the dot-join from the root as
`full_name`. -/
theorem pathConsistent_of_OK (q : List String) :
    ∀ (t : TreeNode) (acc : List String), TreeNodeOK acc t → pathExists t q = true →
      pathConsistent t acc q := by
  induction q with
  | nil => intro t acc _ _; trivial
  | cons m qr ih =>
    intro t acc hok hp
    obtain ⟨l, f, gs, cs⟩ := t
    simp only [TreeNodeOK] at hok
    simp only [pathExists, TreeNode.child_tnodes] at hp
    cases hl : dictGet? cs m with
    | some c =>
      simp only [hl] at hp
      have hc := TreeNodeOKL_lookup acc m c cs hok hl
      exact ⟨c, by simp [TreeNode.child_tnodes, hl], hc.1, hc.2.1,
        ih c (acc ++ [m]) hc.2.2 hp⟩
    | none => simp [hl] at hp

/-- The phase-one fold of `build_module_hierarchy` (lines 399–404): starting
from any tree, it preserves well-formedness, preserves existing paths, makes
the transformed dot-split path of every scope name exist, and attaches no
groups. -/
theorem insertFold_spec (scopes : List String) :
    ∀ init : TreeNode,
      (TreeNodeOK [] init →
        TreeNodeOK []
          (scopes.foldl (fun t s => insert_scope_name t [] (pySplitDotS (hierScopeName s)))
            init)) ∧
      (∀ q, pathExists init q = true →
        pathExists
          (scopes.foldl (fun t s => insert_scope_name t [] (pySplitDotS (hierScopeName s)))
            init) q = true) ∧
      (∀ s ∈ scopes,
        pathExists
          (scopes.foldl (fun t s => insert_scope_name t [] (pySplitDotS (hierScopeName s)))
            init) (pySplitDotS (hierScopeName s)) = true) ∧
      (∀ x, (allGraphNodes
          (scopes.foldl (fun t s => insert_scope_name t [] (pySplitDotS (hierScopeName s)))
            init)).count x = (allGraphNodes init).count x) := by
  induction scopes with
  | nil =>
    intro init
    exact ⟨fun h => h, fun q h => h, fun s hs => absurd hs (List.not_mem_nil s),
      fun x => rfl⟩
  | cons s0 rest ih =>
    intro init
    simp only [List.foldl_cons]
    refine ⟨?_, ?_, ?_, ?_⟩
    · intro h
      exact (ih _).1 (insert_TreeNodeOK _ init [] h)
    · intro q hq
      exact (ih _).2.1 q (insert_pathExists_mono _ init [] q hq)
    · intro s hs
      rcases List.mem_cons.mp hs with hh | ht
      · subst hh
        exact (ih _).2.1 _ (insert_pathExists_self _ init [])
      · exact (ih _).2.2.1 s ht
    · intro x
      rw [(ih _).2.2.2 x, insert_count]

/-- The phase-two fold of `build_module_hierarchy` (lines 406–414): the
occurrence count of a group name `x` grows by the number of groups `g` in the
list that equal `x` and whose dot-split path is missing from the tree. -/
theorem attachFold_count (groups : List String) :
    ∀ (T : TreeNode) (x : String),
      (allGraphNodes
        (groups.foldl (fun t g => attach_node_to_tree t (pySplitDotS g) g) T)).count x =
      (allGraphNodes T).count x +
        groups.countP
          (fun g => decide (x = g ∧ pathExists T (pySplitDotS g) = false)) := by
  induction groups with
  | nil => intro T x; simp
  | cons g0 rest ih =>
    intro T x
    simp only [List.foldl_cons, List.countP_cons]
    rw [ih, attach_count]
    have hcong :
        rest.countP (fun g => decide (x = g ∧
            pathExists (attach_node_to_tree T (pySplitDotS g0) g0) (pySplitDotS g) = false)) =
        rest.countP (fun g => decide (x = g ∧ pathExists T (pySplitDotS g) = false)) := by
      simp only [attach_pathExists]
    rw [hcong]
    by_cases hC : x = g0 ∧ pathExists T (pySplitDotS g0) = false
    · rw [if_pos hC]
      have hd : (if decide (x = g0 ∧ pathExists T (pySplitDotS g0) = false) = true
          then 1 else 0) = 1 := by simp [hC]
      rw [hd]
      omega
    · rw [if_neg hC]
      have hd : (if decide (x = g0 ∧ pathExists T (pySplitDotS g0) = false) = true
          then 1 else 0) = 0 := by simp [hC.imp]
      rw [hd]
      omega

/-- The phase-two fold keeps every `pathConsistent` fact of the phase-one
tree. -/
theorem attachFold_pathConsistent (groups : List String) :
    ∀ (T : TreeNode) (acc q : List String),
      pathConsistent
        (groups.foldl (fun t g => attach_node_to_tree t (pySplitDotS g) g) T) acc q ↔
      pathConsistent T acc q := by
  induction groups with
  | nil => intro T acc q; rfl
  | cons g0 rest ih =>
    intro T acc q
    simp only [List.foldl_cons]
    rw [ih, attach_pathConsistent]

/-- In a duplicate-free list containing `g`, a predicate that only `g` can
satisfy counts to `1` or `0` according to `p g`. -/
theorem countP_nodup_single (p : String → Bool) (g : String) :
    ∀ l : List String, l.Nodup → g ∈ l → (∀ g', p g' = true → g' = g) →
      l.countP p = if p g then 1 else 0 := by
  intro l
  induction l with
  | nil => intro _ h; simp at h
  | cons a rest ih =>
    intro hnd hg hp
    simp only [List.countP_cons]
    by_cases ha : a = g
    · subst ha
      have hz : rest.countP p = 0 := by
        rw [List.countP_eq_zero]
        intro b hb hpb
        exact (List.nodup_cons.mp hnd).1 (hp b hpb ▸ hb)
      rw [hz]
      cases hpa : p a <;> simp
    · have hpa : p a = false := by
        cases hpa : p a with
        | false => rfl
        | true => exact absurd (hp a hpa) ha
      rw [hpa]
      have hg' : g ∈ rest := by
        rcases List.mem_cons.mp hg with h | h
        · exact absurd h.symm ha
        · exact h
      rw [ih (List.nodup_cons.mp hnd).2 hg' hp]
      simp

/-- C3, counterexample: the claim's second half — "attaches every node group
of name_to_node to exactly one tree node" — is false.  With trace scope name
`__module.a.b` and a node group named `a.b`, phase one builds the full path
`a → b`, so `attach_node_to_tree`'s walk consumes both slices without ever
hitting a missing child and returns having attached the group to no tree node
at all: `a.b` occurs zero times among all `graph_nodes` of the result. -/
theorem build_module_hierarchy_claim_cex :
    "a.b" ∈ ["a.b"] ∧
      (allGraphNodes (build_module_hierarchy ["__module.a.b"] ["a.b"])).count "a.b" = 0 := by
  refine ⟨by simp, ?_⟩
  simp [build_module_hierarchy, buildHierarchyPhase1, insert_scope_name, attach_node_to_tree,
    hierScopeName, pySplitDotS, pySplitChar, pyRemoveAll, pyLast, pyJoinChar, dotJoinS,
    dictGet?, dictSet, allGraphNodes, allGraphNodesL, TreeNode.child_tnodes,
    TreeNode.local_name, TreeNode.full_name, TreeNode.graph_nodes, List.foldl]

/-- C3 (amended).  The first half of the claim holds: for every trace scope
name, `build_module_hierarchy` inserts a path of tree nodes whose `full_name`
at each level is the dot-join of the local names from the root along that path
(`pathConsistent`).  The second half is corrected: a node group is attached to
exactly one tree node — contributing exactly one occurrence of its name to the
tree's `graph_nodes` lists — precisely when its dot-split name is *not* a full
path of the phase-one tree; when the full path exists (the common case, since
scope names create exactly those paths), the group is attached nowhere. -/
theorem build_module_hierarchy_amended (scope_names group_names : List String)
    (hnd : group_names.Nodup) :
    (∀ s ∈ scope_names,
      pathConsistent (build_module_hierarchy scope_names group_names) []
        (pySplitDotS (hierScopeName s))) ∧
    (∀ g ∈ group_names,
      (allGraphNodes (build_module_hierarchy scope_names group_names)).count g =
        if pathExists (buildHierarchyPhase1 scope_names) (pySplitDotS g) = true
        then 0 else 1) := by
  constructor
  · intro s hs
    simp only [build_module_hierarchy]
    rw [attachFold_pathConsistent]
    refine pathConsistent_of_OK _ _ _ ?_ ?_
    · refine (insertFold_spec scope_names (TreeNode.mk "root" "root" [] [])).1 ?_
      simp [TreeNodeOK, TreeNode.child_tnodes, TreeNodeOKL]
    · exact (insertFold_spec scope_names _).2.2.1 s hs
  · intro g hg
    simp only [build_module_hierarchy]
    rw [attachFold_count]
    have hz : (allGraphNodes (buildHierarchyPhase1 scope_names)).count g = 0 := by
      rw [buildHierarchyPhase1,
        (insertFold_spec scope_names (TreeNode.mk "root" "root" [] [])).2.2.2 g]
      simp [allGraphNodes, allGraphNodesL]
    rw [hz]
    have hp : ∀ g', (fun g' => decide (g = g' ∧
        pathExists (buildHierarchyPhase1 scope_names) (pySplitDotS g') = false)) g' = true →
        g' = g := by
      intro g' h
      simp only [decide_eq_true_eq] at h
      exact h.1.symm
    rw [countP_nodup_single
      (fun g' => decide (g = g' ∧
        pathExists (buildHierarchyPhase1 scope_names) (pySplitDotS g') = false))
      g group_names hnd hg hp]
    by_cases hpe : pathExists (buildHierarchyPhase1 scope_names) (pySplitDotS g) = true
    · simp [hpe]
    · simp [hpe]

theorem build_module_hierarchy_amended_witness :
    (["a.b"] : List String).Nodup ∧
    ((∀ s ∈ ["__module.a.b"],
      pathConsistent (build_module_hierarchy ["__module.a.b"] ["a.b"]) []
        (pySplitDotS (hierScopeName s))) ∧
    (∀ g ∈ ["a.b"],
      (allGraphNodes (build_module_hierarchy ["__module.a.b"] ["a.b"])).count g =
        if pathExists (buildHierarchyPhase1 ["__module.a.b"]) (pySplitDotS g) = true
        then 0 else 1)) :=
  ⟨by simp, build_module_hierarchy_amended ["__module.a.b"] ["a.b"] (by simp)⟩

/-! ## Claim C9: `_extract_leaf_modules` -/

/-- Python string `<=` is total. -/
theorem lexLe_total (a : List Char) : ∀ b : List Char,
    lexLe a b = true ∨ lexLe b a = true := by
  induction a with
  | nil => intro b; left; rfl
  | cons x as ih =>
    intro b
    cases b with
    | nil => right; rfl
    | cons y bs =>
      rcases lt_trichotomy x y with h | h | h
      · left; simp [lexLe, h]
      · subst h
        rcases ih bs with h2 | h2
        · left; simp [lexLe, h2]
        · right; simp [lexLe, h2]
      · right; simp [lexLe, h]

/-- Python string `<=` is transitive. -/
theorem lexLe_trans (a : List Char) : ∀ b c : List Char,
    lexLe a b = true → lexLe b c = true → lexLe a c = true := by
  induction a with
  | nil => intro b c _ _; rfl
  | cons x as ih =>
    intro b c h1 h2
    cases b with
    | nil => simp [lexLe] at h1
    | cons y bs =>
      cases c with
      | nil => simp [lexLe] at h2
      | cons z cs =>
        simp only [lexLe] at h1 h2 ⊢
        by_cases hxy : x < y
        · by_cases hyz : y < z
          · rw [if_pos (lt_trans hxy hyz)]
          · rw [if_neg hyz] at h2
            by_cases hyz2 : y = z
            · subst hyz2; rw [if_pos hxy]
            · rw [if_neg hyz2] at h2; exact absurd h2 (by simp)
        · rw [if_neg hxy] at h1
          by_cases hxy2 : x = y
          · subst hxy2
            rw [if_pos rfl] at h1
            by_cases hxz : x < z
            · rw [if_pos hxz]
            · rw [if_neg hxz] at h2 ⊢
              by_cases hxz2 : x = z
              · rw [if_pos hxz2] at h2 ⊢
                exact ih bs cs h1 h2
              · rw [if_neg hxz2] at h2; exact absurd h2 (by simp)
          · rw [if_neg hxy2] at h1; exact absurd h1 (by simp)

/-- `s < t` and `t <= s` cannot both hold for Python strings. -/
theorem lexLt_not_le (a : List Char) : ∀ b : List Char,
    lexLt a b = true → lexLe b a = true → False := by
  induction a with
  | nil =>
    intro b h1 h2
    cases b with
    | nil => simp [lexLt] at h1
    | cons y bs => simp [lexLe] at h2
  | cons x as ih =>
    intro b h1 h2
    cases b with
    | nil => simp [lexLt] at h1
    | cons y bs =>
      simp only [lexLt] at h1
      simp only [lexLe] at h2
      by_cases hxy : x < y
      · rw [if_neg (asymm hxy), if_neg (ne_of_gt hxy)] at h2
        exact absurd h2 (by simp)
      · rw [if_neg hxy] at h1
        by_cases hxy2 : x = y
        · subst hxy2
          rw [if_pos rfl] at h1
          rw [if_neg hxy, if_pos rfl] at h2
          exact ih bs h1 h2
        · rw [if_neg hxy2] at h1; exact absurd h1 (by simp)

/-- A string is strictly below every proper extension of itself. -/
theorem lexLt_self_append (c : Char) (R : List Char) :
    ∀ X : List Char, lexLt X (X ++ c :: R) = true := by
  intro X
  induction X with
  | nil => rfl
  | cons a X' ih =>
    simp only [List.cons_append, lexLt, lt_irrefl, if_false, if_pos rfl]
    exact ih

/-- Every Python identifier character (alphanumeric or underscore) sorts
strictly after `'.'` — the fact that makes the adjacent-comparison trick of
`_extract_leaf_modules` sound on dotted identifier paths. -/
theorem dot_lt_identChar (c : Char) (h : identChar c = true) : ('.' : Char) < c := by
  simp only [identChar, Char.isAlphanum, Char.isAlpha, Char.isDigit, Char.isUpper,
    Char.isLower, Bool.or_eq_true, Bool.and_eq_true, decide_eq_true_eq] at h
  rcases h with ((⟨h1, _⟩ | ⟨h1, _⟩) | ⟨h1, _⟩) | h1
  · exact lt_of_lt_of_le (show ('.' : Char) < 'A' by decide) h1
  · exact lt_of_lt_of_le (show ('.' : Char) < 'a' by decide) h1
  · exact lt_of_lt_of_le (show ('.' : Char) < '0' by decide) h1
  · subst h1; decide

/-- Key separation fact: if `Z` is made of identifier characters and dots and
lies strictly between `X` and some extension `X ++ '.' :: R` in Python string
order, then `Z` itself extends `X ++ '.'`. -/
theorem lexLe_between_dot (R : List Char) :
    ∀ (X Z : List Char), (∀ c ∈ Z, identChar c = true ∨ c = '.') →
      lexLe X Z = true → X ≠ Z → lexLe Z (X ++ '.' :: R) = true →
      ∃ R', Z = X ++ '.' :: R' := by
  intro X
  induction X with
  | nil =>
    intro Z hch _ hne h2
    cases Z with
    | nil => exact absurd rfl hne
    | cons z zs =>
      rcases hch z (List.mem_cons_self z zs) with hz | hz
      · have hdz := dot_lt_identChar z hz
        simp only [List.nil_append, lexLe, if_neg (asymm hdz), if_neg (ne_of_gt hdz)] at h2
        exact absurd h2 (by simp)
      · subst hz
        exact ⟨zs, rfl⟩
  | cons a X' ih =>
    intro Z hch h1 hne h2
    cases Z with
    | nil => simp [lexLe] at h1
    | cons z zs =>
      simp only [lexLe] at h1
      simp only [List.cons_append, lexLe] at h2
      by_cases haz : a < z
      · rw [if_neg (asymm haz), if_neg (ne_of_gt haz)] at h2
        exact absurd h2 (by simp)
      · rw [if_neg haz] at h1
        by_cases haz2 : a = z
        · subst haz2
          rw [if_pos rfl] at h1
          rw [if_neg (lt_irrefl a), if_pos rfl] at h2
          have hne' : X' ≠ zs := fun he => hne (by rw [he])
          obtain ⟨R', hR'⟩ := ih zs (fun c hc => hch c (List.mem_cons_of_mem _ hc))
            h1 hne' h2
          exact ⟨R', by rw [hR']; rfl⟩
        · rw [if_neg haz2] at h1; exact absurd h1 (by simp)

/-- `sep.join(s.split(sep)) == s`. -/
theorem pyJoinChar_pySplitChar (sep : Char) : ∀ cs : List Char,
    pyJoinChar sep (pySplitChar sep cs) = cs := by
  intro cs
  induction cs with
  | nil => rfl
  | cons c rest ih =>
    obtain ⟨s, r, hs⟩ := pySplitChar_dest sep rest
    rw [pySplitChar_cons_eq sep c rest s r hs]
    rw [hs] at ih
    by_cases hc : c = sep
    · rw [if_pos hc, hc]
      simpa [pyJoinChar] using ih
    · rw [if_neg hc]
      cases r with
      | nil => simp only [pyJoinChar] at ih ⊢; rw [ih]
      | cons t r' => simp only [pyJoinChar] at ih ⊢; rw [List.cons_append, ih]

/-- Joining a concatenation of two non-empty piece lists inserts the
separator at the boundary. -/
theorem pyJoinChar_append (sep : Char) :
    ∀ A B : List (List Char), A ≠ [] → B ≠ [] →
      pyJoinChar sep (A ++ B) = pyJoinChar sep A ++ sep :: pyJoinChar sep B := by
  intro A
  induction A with
  | nil => intro B h _; exact absurd rfl h
  | cons a A' ih =>
    intro B _ hB
    cases A' with
    | nil =>
      cases B with
      | nil => exact absurd rfl hB
      | cons b B' => simp [pyJoinChar]
    | cons a2 A'' =>
      have hrec := ih B (by simp) hB
      show a ++ sep :: pyJoinChar sep (a2 :: (A'' ++ B)) =
        (a ++ sep :: pyJoinChar sep (a2 :: A'')) ++ sep :: pyJoinChar sep B
      rw [show a2 :: (A'' ++ B) = (a2 :: A'') ++ B from rfl, hrec]
      simp

/-- `is_parent(name1, name2)` (source lines 577–589) holds exactly when
`name2 == name1 + '.' + rest`: dot-split prefix with fewer parts is the same
as extending the raw string by a dot. -/
theorem is_parent_iff (x y : String) :
    is_parent x y = true ↔ ∃ R, y.data = x.data ++ '.' :: R := by
  simp only [is_parent, Bool.and_eq_true, decide_eq_true_eq,
    List.isPrefixOf_iff_prefix]
  constructor
  · rintro ⟨hlen, E, hE⟩
    cases E with
    | nil => rw [← hE] at hlen; simp at hlen
    | cons e E' =>
      refine ⟨pyJoinChar '.' (e :: E'), ?_⟩
      have hj := congrArg (pyJoinChar '.') hE
      rw [pyJoinChar_pySplitChar] at hj
      rw [← hj, pyJoinChar_append '.' _ _ (pySplitChar_ne_nil '.' x.data) (by simp),
        pyJoinChar_pySplitChar]
  · rintro ⟨R, hR⟩
    rw [hR, pySplitChar_append]
    constructor
    · have := pySplitChar_ne_nil '.' R
      have hpos : 0 < (pySplitChar '.' R).length := List.length_pos.mpr this
      simp only [List.length_append]
      omega
    · exact List.prefix_append _ _

/-- No name is its own parent (the length guard, source line 584). -/
theorem is_parent_self (x : String) : is_parent x x = false := by
  simp [is_parent]

/-- A parent sorts strictly before its descendant. -/
theorem lexLt_of_is_parent (x y : String) (h : is_parent x y = true) :
    lexLt x.data y.data = true := by
  obtain ⟨R, hR⟩ := (is_parent_iff x y).mp h
  rw [hR]
  exact lexLt_self_append '.' R x.data

/-- The adjacent-comparison loop of `_extract_leaf_modules` (source lines
593–595), on a sorted duplicate-free list of dotted identifier names, keeps
exactly the names that are parent of *no* element of the list. -/
theorem leafFilter_iff :
    ∀ S : List String, S.Pairwise strLe → S.Nodup →
      (∀ n ∈ S, ∀ c ∈ n.data, identChar c = true ∨ c = '.') →
      ∀ x, x ∈ leafFilter S ↔ (x ∈ S ∧ ∀ y ∈ S, is_parent x y = false) := by
  intro S
  induction S with
  | nil => intro _ _ _ x; simp [leafFilter]
  | cons x0 S' ih =>
    intro hsort hnd hch x
    cases S' with
    | nil =>
      constructor
      · intro hx
        rw [show leafFilter [x0] = [x0] from rfl] at hx
        obtain rfl := List.mem_singleton.mp hx
        refine ⟨List.mem_singleton_self x, ?_⟩
        intro y hy
        obtain rfl := List.mem_singleton.mp hy
        exact is_parent_self y
      · rintro ⟨hx, _⟩
        rw [show leafFilter [x0] = [x0] from rfl]
        exact hx
    | cons y0 rest =>
      have hx0le : ∀ z ∈ y0 :: rest, strLe x0 z :=
        fun z hz => (List.pairwise_cons.mp hsort).1 z hz
      have hsort' : (y0 :: rest).Pairwise strLe := (List.pairwise_cons.mp hsort).2
      have hnd' : (y0 :: rest).Nodup := (List.nodup_cons.mp hnd).2
      have hx0nm : x0 ∉ y0 :: rest := (List.nodup_cons.mp hnd).1
      have hch' : ∀ n ∈ y0 :: rest, ∀ c ∈ n.data, identChar c = true ∨ c = '.' :=
        fun n hn => hch n (List.mem_cons_of_mem _ hn)
      have htail := ih hsort' hnd' hch'
      have hnoparent_tail : ∀ z, z ∈ y0 :: rest → is_parent z x0 = false := by
        intro z hz
        cases hpz : is_parent z x0 with
        | false => rfl
        | true =>
          have hlt := lexLt_of_is_parent z x0 hpz
          exact absurd (hx0le z hz) (fun hle => lexLt_not_le z.data x0.data hlt hle)
      by_cases hp : is_parent x0 y0 = true
      · rw [show leafFilter (x0 :: y0 :: rest) = leafFilter (y0 :: rest) by
          simp [leafFilter, hp]]
        rw [htail x]
        constructor
        · rintro ⟨hx, hcond⟩
          refine ⟨List.mem_cons_of_mem _ hx, ?_⟩
          intro y hy
          rcases List.mem_cons.mp hy with rfl | hy'
          · exact hnoparent_tail x hx
          · exact hcond y hy'
        · rintro ⟨hx, hcond⟩
          rcases List.mem_cons.mp hx with rfl | hx'
          · exact absurd (hcond y0 (List.mem_cons_of_mem _ (List.mem_cons_self y0 rest)))
              (by simp [hp])
          · exact ⟨hx', fun y hy => hcond y (List.mem_cons_of_mem _ hy)⟩
      · rw [show leafFilter (x0 :: y0 :: rest) = x0 :: leafFilter (y0 :: rest) by
          simp [leafFilter, hp]]
        have hx0ne : x0 ≠ y0 := fun he => hx0nm (he ▸ List.mem_cons_self y0 rest)
        have hx0leaf : ∀ y ∈ x0 :: y0 :: rest, is_parent x0 y = false := by
          intro y hy
          rcases List.mem_cons.mp hy with rfl | hy'
          · exact is_parent_self y
          rcases List.mem_cons.mp hy' with rfl | hy''
          · cases hb : is_parent x0 y with
            | false => rfl
            | true => exact absurd hb hp
          · cases hb : is_parent x0 y with
            | false => rfl
            | true =>
              obtain ⟨R, hR⟩ := (is_parent_iff x0 y).mp hb
              have hy0y : strLe y0 y := (List.pairwise_cons.mp hsort').1 y hy''
              have hy0le : lexLe y0.data (x0.data ++ '.' :: R) = true := by
                rw [← hR]; exact hy0y
              have hx0y0 : lexLe x0.data y0.data = true :=
                hx0le y0 (List.mem_cons_self y0 rest)
              have hdne : x0.data ≠ y0.data := fun he => hx0ne (by
                cases x0; cases y0; simp only at he; rw [he])
              obtain ⟨R', hR'⟩ := lexLe_between_dot R x0.data y0.data
                (hch' y0 (List.mem_cons_self y0 rest)) hx0y0 hdne hy0le
              have : is_parent x0 y0 = true := (is_parent_iff x0 y0).mpr ⟨R', hR'⟩
              exact absurd this hp
        constructor
        · intro hx
          rcases List.mem_cons.mp hx with rfl | hx'
          · exact ⟨List.mem_cons_self x (y0 :: rest), hx0leaf⟩
          · obtain ⟨hxm, hcond⟩ := (htail x).mp hx'
            refine ⟨List.mem_cons_of_mem _ hxm, ?_⟩
            intro y hy
            rcases List.mem_cons.mp hy with rfl | hy'
            · exact hnoparent_tail x hxm
            · exact hcond y hy'
        · rintro ⟨hx, hcond⟩
          rcases List.mem_cons.mp hx with rfl | hx'
          · exact List.mem_cons_self x _
          · exact List.mem_cons_of_mem _ ((htail x).mpr
              ⟨hx', fun y hy => hcond y (List.mem_cons_of_mem _ hy)⟩)

/-- C9: for every duplicate-free list of dotted module names made of
identifier characters and dots, `_extract_leaf_modules` returns exactly those
names that are not a proper dotted-path prefix (`is_parent`) of any other name
in the list, even though the loop only compares each name with its immediate
successor in sorted order. -/
theorem extract_leaf_modules_spec (module_names : List String)
    (hnd : module_names.Nodup)
    (hch : ∀ n ∈ module_names, ∀ c ∈ n.data, identChar c = true ∨ c = '.') :
    ∀ x, x ∈ _extract_leaf_modules module_names ↔
      (x ∈ module_names ∧ ∀ y ∈ module_names, is_parent x y = false) := by
  intro x
  haveI : IsTotal String strLe :=
    ⟨fun a b => by
      rcases lexLe_total a.data b.data with h | h
      · exact Or.inl h
      · exact Or.inr h⟩
  haveI : IsTrans String strLe :=
    ⟨fun a b c h1 h2 => lexLe_trans a.data b.data c.data h1 h2⟩
  have hperm := List.perm_insertionSort strLe module_names
  have hsorted : (List.insertionSort strLe module_names).Pairwise strLe :=
    List.sorted_insertionSort strLe module_names
  have hnd2 : (List.insertionSort strLe module_names).Nodup := hperm.nodup_iff.mpr hnd
  have hch2 : ∀ n ∈ List.insertionSort strLe module_names, ∀ c ∈ n.data,
      identChar c = true ∨ c = '.' :=
    fun n hn => hch n (hperm.mem_iff.mp hn)
  rw [_extract_leaf_modules,
    leafFilter_iff (List.insertionSort strLe module_names) hsorted hnd2 hch2 x,
    hperm.mem_iff]
  constructor
  · rintro ⟨hx, hcond⟩
    exact ⟨hx, fun y hy => hcond y (hperm.mem_iff.mpr hy)⟩
  · rintro ⟨hx, hcond⟩
    exact ⟨hx, fun y hy => hcond y (hperm.mem_iff.mp hy)⟩

theorem extract_leaf_modules_spec_witness :
    (["features", "features.conv", "pool"] : List String).Nodup ∧
    (∀ n ∈ (["features", "features.conv", "pool"] : List String),
      ∀ c ∈ n.data, identChar c = true ∨ c = '.') ∧
    (∀ x, x ∈ _extract_leaf_modules ["features", "features.conv", "pool"] ↔
      (x ∈ (["features", "features.conv", "pool"] : List String) ∧
        ∀ y ∈ (["features", "features.conv", "pool"] : List String),
          is_parent x y = false)) :=
  ⟨by decide, by decide,
    extract_leaf_modules_spec ["features", "features.conv", "pool"] (by decide) (by decide)⟩
